import Mathlib

set_option autoImplicit false
set_option maxRecDepth 100000

namespace HomeAutomation

/-!
# Verification of the home_automation media-archive pipeline

Shallow embedding, in Lean 4, of the parts of the `home_automation`
repository that the specification's claims are about:

* `verify_media_archive.py` — the Verify stage (`_verify_row`);
* `apply_deletion_manifest.py` — the Apply-Deletion stage
  (`_prevalidate_run_ids`, `_process_row`, `main`);
* `dedupe_archive_from_verified_manifest.py` — the Dedupe stage
  (run-id scan of `_build_groups`, `_score_destination`, `_choose_canonical`);
* `home_automation_common.get_unique_destination_path` — referenced by three
  modules but not defined anywhere under the sources we have; modelled from
  the spec where needed;
* `map_originals.py` — canonical-candidate selection, provenance weights,
  `upsert_canonical`;
* `scan.py` — `scan_root`'s file upserts and `mark_missing`.

Filesystems are modelled as maps from path strings to file metadata, the
SQLite tables as Lean structures, lists, or finite maps, Python strings as
`String`, Python integers as `Nat`/`Int`, and Python floats as exact
rationals (`ℚ`).  Python's `None`/falsy-string conventions are modelled with
`Option`/empty strings, mirroring each `if not x` in the source.
-/

/-! ## Verify stage: `verify_media_archive._verify_row`

The filesystem is a partial map from path strings to file metadata.
`statOk` models whether `Path.stat()` succeeds for the file (the
`try/except` at lines 130–135 of `verify_media_archive.py`), and
`hashRes` models `_hash_file`: `some h` is a successfully computed digest,
`none` a hashing exception (the error-message text carried in the Python
note string is elided; only the note's identity matters here). -/

structure FInfo where
  statOk : Bool
  size : Nat
  hashRes : Option String
deriving DecidableEq

def VFS : Type := String → Option FInfo

/-- One input row of the Verify stage (columns used by `_verify_row`). -/
structure VRow where
  source_path : String
  destination_path : String
  file_size_bytes : String
  run_id : String
deriving DecidableEq

/-- Result of `_verify_row`: status, notes, the two hash columns (empty when
not computed, mirroring `source_hash or ""`), and the copied-through
`run_id` / `file_size_bytes`. -/
structure VOut where
  status : String
  notes : List String
  source_hash : String
  destination_hash : String
  run_id : String
  file_size_bytes : String
deriving DecidableEq

/-- Python `str.isdigit` on the ASCII digits that can appear in a CSV size
column: nonempty and all characters are digits. -/
def isDigitStr (s : String) : Bool :=
  s ≠ "" && s.data.all Char.isDigit

/-- Python `int(...)` on a digit string. -/
def parseNat (s : String) : Nat :=
  s.data.foldl (fun acc c => acc * 10 + (c.toNat - 48)) 0

/-- The notes appended at lines 137–142 of `verify_media_archive.py`:
comparison of the CSV `file_size_bytes` column against the two on-disk
sizes, performed only when the column is a digit string. -/
def csvSizeNotes (fileSizeBytes : String) (sourceSize destSize : Nat) : List String :=
  if isDigitStr fileSizeBytes then
    (if parseNat fileSizeBytes ≠ sourceSize then ["source size mismatch vs csv"] else []) ++
    (if parseNat fileSizeBytes ≠ destSize then ["destination size mismatch vs csv"] else [])
  else []

/-- `_verify_row` (verify_media_archive.py lines 111–163). -/
def verify_row (fs : VFS) (row : VRow) : VOut :=
  match fs row.source_path with
  | none => ⟨"unverified", ["source missing"], "", "", row.run_id, row.file_size_bytes⟩
  | some sInfo =>
    match fs row.destination_path with
    | none => ⟨"unverified", ["destination missing"], "", "", row.run_id, row.file_size_bytes⟩
    | some dInfo =>
      if ¬ (sInfo.statOk ∧ dInfo.statOk) then
        ⟨"unverified", ["stat error"], "", "", row.run_id, row.file_size_bytes⟩
      else
        let notes0 := csvSizeNotes row.file_size_bytes sInfo.size dInfo.size
        if sInfo.size ≠ dInfo.size then
          ⟨"unverified", notes0 ++ ["size mismatch"], "", "", row.run_id, row.file_size_bytes⟩
        else
          match sInfo.hashRes with
          | none => ⟨"unverified", notes0 ++ ["source hash error"], "", "",
              row.run_id, row.file_size_bytes⟩
          | some sh =>
            match dInfo.hashRes with
            | none => ⟨"unverified", notes0 ++ ["destination hash error"], sh, "",
                row.run_id, row.file_size_bytes⟩
            | some dh =>
              if sh ≠ dh then
                ⟨"unverified", notes0 ++ ["hash mismatch"], sh, dh,
                  row.run_id, row.file_size_bytes⟩
              else
                ⟨"verified", notes0, sh, dh, row.run_id, row.file_size_bytes⟩

/-! ## Apply-Deletion and Dedupe stages

Paths in the deletion/quarantine model are a base string plus a numeric
collision suffix: `⟨b, 0⟩` stands for the path `b` itself and `⟨b, n⟩`
with `n ≥ 2` for `b` with the appended suffix `" (n)"`.  The separate
suffix field keeps "append a numeric suffix" injective without modelling
decimal rendering.  A filesystem is the list of existing files. -/

structure FPath where
  base : String
  suffix : Nat
deriving DecidableEq

/-- Modelled from the spec: `home_automation_common.get_unique_destination_path`
is called by `apply_deletion_manifest.py` (line 148),
`dedupe_archive_from_verified_manifest.py` (lines 288, 379) and
`organize_media_by_date.py` (line 214) but is not defined anywhere in the
sources we have.  The spec says quarantine moves resolve "name collisions by
appending a numeric suffix": if the requested path is free it is returned
unchanged, otherwise the smallest numeric suffix (starting at 2, Windows
style) that yields a path not on disk is appended. -/
def get_unique_destination_path (fs : List FPath) (b : String) : FPath :=
  if FPath.mk b 0 ∈ fs then
    match (List.range (fs.length + 1)).find? (fun i => decide (FPath.mk b (i + 2) ∉ fs)) with
    | some i => FPath.mk b (i + 2)
    | none => FPath.mk b (fs.length + 3)
  else FPath.mk b 0

/-- `shutil.move` on the list-of-files model: succeeds exactly when the
source exists and the destination does not (moving onto an existing file
fails on the Windows targets this repository runs on). -/
def shutil_move (fs : List FPath) (src dst : FPath) : Option (List FPath) :=
  if src ∈ fs ∧ dst ∉ fs then some (dst :: fs.erase src) else none

/-- A manifest row of the Apply-Deletion stage (columns used by
`_process_row` and `_prevalidate_run_ids`; an empty `run_id` models a
missing/falsy value). -/
structure DRow where
  run_id : String
  verification_status : String
  source_path : String
deriving DecidableEq

/-- The command-line arguments of `apply_deletion_manifest.py` that the
claims touch.  `offset` is the already-merged `start_offset`
(`max(args.offset, state_cursor)`); the state file itself is not modelled. -/
structure DelArgs where
  delete_permanently : Bool
  yes_really_delete : Bool
  dry_run : Bool
  expected_run_id : String
  offset : Nat
  limit : Nat
  quarantine_root : String
deriving DecidableEq

/-- Loop body of `_prevalidate_run_ids` (apply_deletion_manifest.py lines
99–111): the accumulator is `(first_run_id, mismatches)`.  Note the auto
mode never compares `run_id` against the inferred value — the comparison is
guarded by `expected_run_id != "auto"` in the source. -/
def prevalStep (expected : String) (acc : Option String × List (Nat × String))
    (ir : Nat × DRow) : Option String × List (Nat × String) :=
  if ir.2.run_id = "" then (acc.1, acc.2 ++ [(ir.1, "missing run_id")])
  else
    let first := if acc.1 = none then some ir.2.run_id else acc.1
    if expected ≠ "auto" ∧ ir.2.run_id ≠ expected then
      (first, acc.2 ++ [(ir.1, "expected " ++ expected ++ ", found " ++ ir.2.run_id)])
    else (first, acc.2)

/-- `_prevalidate_run_ids` (apply_deletion_manifest.py lines 93–113):
scan the rows with index in `[off, off + lim)` and return the
inferred/expected run id and the list of `(row index, reason)` mismatches. -/
def prevalidate_run_ids (manifest : List DRow) (expected : String) (off lim : Nat) :
    Option String × List (Nat × String) :=
  let r := (((manifest.enum).drop off).take lim).foldl (prevalStep expected) (none, [])
  (if expected = "auto" then r.1 else some expected, r.2)

/-- `_process_row` (apply_deletion_manifest.py lines 116–160) on the
list-of-files model: returns the action, the quarantine destination (when
one was computed), the notes, and the filesystem after the row.
`_relative_to_root` is the identity on the drive-less paths of this model,
and `mkdir` is elided (directories are not modelled). -/
def process_row (row : DRow) (args : DelArgs) (fs : List FPath) :
    String × Option FPath × List String × List FPath :=
  if row.verification_status ≠ "verified" then ("skipped", none, ["not verified"], fs)
  else
    let src := FPath.mk row.source_path 0
    if src ∉ fs then ("error", none, ["source missing"], fs)
    else if args.delete_permanently then
      if args.dry_run then ("delete", none, ["dry run: delete"], fs)
      else ("delete", none, [], fs.erase src)
    else
      let dst := get_unique_destination_path fs (args.quarantine_root ++ "/" ++ row.source_path)
      if args.dry_run then ("quarantine", some dst, ["dry run: quarantine"], fs)
      else
        match shutil_move fs src dst with
        | some fs2 => ("quarantine", some dst, [], fs2)
        | none => ("error", some dst, ["quarantine failed"], fs)

/-- One output row of the Apply-Deletion results CSV. -/
structure DelOut where
  run_id : String
  source_path : String
  action_taken : String
  destination_quarantine_path : Option FPath
  notes : List String
deriving DecidableEq

/-- Result of one Apply-Deletion invocation: `exitError = some msg` models
`raise SystemExit(msg)` (non-zero exit), `out` the rows written to the
results CSV, `fs` the filesystem afterwards. -/
structure DelResult where
  exitError : Option String
  out : List DelOut
  fs : List FPath
deriving DecidableEq

/-- `main` of `apply_deletion_manifest.py` (lines 163–272): the
`--delete-permanently` guard, then `_prevalidate_run_ids` (non-empty
mismatch list raises `SystemExit` before any output row or mutation), then
the row loop over the rows with index in `[offset, offset + limit)`. -/
def apply_deletion_run (args : DelArgs) (manifest : List DRow) (fs : List FPath) : DelResult :=
  if args.delete_permanently ∧ ¬ args.yes_really_delete then
    ⟨some "Refusing to delete permanently without --yes-really-delete.", [], fs⟩
  else
    let pv := prevalidate_run_ids manifest args.expected_run_id args.offset args.limit
    if pv.2 ≠ [] then
      ⟨some "Run ID validation failed; aborting without changes.", [], fs⟩
    else
      let fin := ((manifest.drop args.offset).take args.limit).foldl
        (fun (acc : List DelOut × List FPath) row =>
          let r := process_row row args acc.2
          (acc.1 ++ [⟨row.run_id, row.source_path, r.1, r.2.1, r.2.2.1⟩], r.2.2.2))
        ([], fs)
      ⟨none, fin.1, fin.2⟩

/-- A row of the verified manifest that the Dedupe stage reads (columns
driving the run-id scan of `_build_groups`). -/
structure DedupeRow where
  run_id : String
  verification_status : String
  destination_path : String
deriving DecidableEq

/-- Run-id handling of the row loop of `_build_groups`
(dedupe_archive_from_verified_manifest.py lines 173–187): the accumulator
is `(inferred_run_id, mismatches)`.  Unlike Apply-Deletion, in auto mode
the first row's run id becomes the expected value and later rows are
compared against it. -/
def dedupeStep (expected : String) (acc : Option String × List (Nat × String))
    (ir : Nat × DedupeRow) : Option String × List (Nat × String) :=
  if ir.2.run_id = "" then (acc.1, acc.2 ++ [(ir.1, "missing run_id")])
  else
    let inferred := if expected = "auto" ∧ acc.1 = none then some ir.2.run_id else acc.1
    let exp := if expected = "auto" then inferred.getD ir.2.run_id else expected
    if ir.2.run_id ≠ exp then
      (inferred, acc.2 ++ [(ir.1, "expected " ++ exp ++ ", found " ++ ir.2.run_id)])
    else (inferred, acc.2)

/-- The run-id mismatch scan of `_build_groups`; a non-empty mismatch list
makes `main` raise `SystemExit` before any file is moved (lines 309–317). -/
def dedupe_scan_mismatches (rows : List DedupeRow) (expected : String) :
    Option String × List (Nat × String) :=
  rows.enum.foldl (dedupeStep expected) (none, [])

/-! ## Dedupe canonical choice: `_score_destination` / `_choose_canonical`

Entries are the destination paths (strings); `pathStem` is `pathlib`'s
`Path.stem` and character classes (`\d`, `\s`, `isalpha`) are modelled over
ASCII, which covers the manifest paths at issue. -/

def HASH_PENALTY_DUP_SUFFIX : Int := 20

def HASH_PENALTY_CAMERA : Int := 10

def HASH_BONUS_SPACES : Int := 5

def HASH_BONUS_LETTERS_CAP : Int := 30

def HASH_BONUS_LENGTH_CAP : Int := 30

/-- Final path component: everything after the last `/` or `\`. -/
def pathName (p : String) : List Char :=
  (p.data.reverse.takeWhile (fun c => c ≠ '/' ∧ c ≠ '\\')).reverse

/-- Index of the last occurrence of `c`, if any. -/
def lastIdxOf (c : Char) (l : List Char) : Option Nat :=
  match l.reverse.findIdx? (· = c) with
  | none => none
  | some r => some (l.length - 1 - r)

/-- `pathlib.PurePath.stem`: the name without its suffix; the suffix is
`name[i:]` for `i = name.rfind(".")` only when `0 < i < len(name) - 1`. -/
def pathStem (p : String) : String :=
  let name := pathName p
  match lastIdxOf '.' name with
  | none => ⟨name⟩
  | some i => if 0 < i ∧ i < name.length - 1 then ⟨name.take i⟩ else ⟨name⟩

/-- `_has_duplicate_suffix`: `re.search(r"\s\(\d+\)$", name)` — the name
ends with a whitespace character, `(`, one or more digits, `)`. -/
def has_duplicate_suffix (s : String) : Bool :=
  match s.data.reverse with
  | ')' :: rest =>
    let ds := rest.takeWhile Char.isDigit
    decide (ds ≠ []) &&
      (match rest.drop ds.length with
       | '(' :: c :: _ => c.isWhitespace
       | _ => false)
  | _ => false

/-- Case-insensitive full match of `PRE\d+` (or `PRE\d*` when `needDigit`
is false) against `s`, used for the camera-style patterns. -/
def matchesPrefDigits (pre : String) (needDigit : Bool) (s : String) : Bool :=
  let d := (s.data.map Char.toUpper)
  decide (d.take pre.length = pre.data) &&
    (d.drop pre.length).all Char.isDigit &&
    (!needDigit || decide (d.drop pre.length ≠ []))

/-- `_is_camera_style` (dedupe_archive_from_verified_manifest.py lines
101–111). -/
def is_camera_style (s : String) : Bool :=
  matchesPrefDigits "IMG_" true s || matchesPrefDigits "DSC_" true s ||
  matchesPrefDigits "PXL_" true s || matchesPrefDigits "VID_" true s ||
  matchesPrefDigits "MOV_" true s || matchesPrefDigits "DCIM" false s ||
  matchesPrefDigits "DSCN" true s

/-- `_score_destination` (lines 114–139): duplicate-suffix penalty,
camera-style penalty, capped letter bonus, space bonus, capped stem-length
bonus. -/
def score_destination (path : String) : Int :=
  let base := pathStem path
  (if has_duplicate_suffix base then -HASH_PENALTY_DUP_SUFFIX else 0) +
  (if is_camera_style base then -HASH_PENALTY_CAMERA else 0) +
  min (base.data.countP Char.isAlpha : Int) HASH_BONUS_LETTERS_CAP +
  (if base.data.contains ' ' then HASH_BONUS_SPACES else 0) +
  min (base.length : Int) HASH_BONUS_LENGTH_CAP

/-- Loop body of `_choose_canonical` (lines 145–154): keep the running
best, replace on a strictly higher score, or on an equal score with a
lexicographically smaller path string. -/
def chooseStep (best : Option (String × Int)) (e : String) : Option (String × Int) :=
  let s := score_destination e
  match best with
  | none => some (e, s)
  | some (b, bs) =>
    if s > bs then some (e, s)
    else if s = bs ∧ e < b then some (e, s)
    else some (b, bs)

/-- `_choose_canonical` (lines 142–160); the human-readable `keep_reason`
string is elided. -/
def choose_canonical (entries : List String) : Option String :=
  (entries.foldl chooseStep none).map (fun r => r.1)

/-! ## Canonical Resolver: `map_originals.py` -/

/-- A `files`-table row joined with its group role
(`map_originals.FileRow`). -/
structure FileRow where
  file_id : Nat
  path : String
  ext : Option String
  status : Option String
  role : String
deriving DecidableEq

/-- Python `str.lower` over the character list (computably, character by
character; ASCII case mapping). -/
def lowerStr (s : String) : String := ⟨s.data.map Char.toLower⟩

/-- Python `str.strip`: drop leading and trailing whitespace. -/
def trimStr (s : String) : String :=
  ⟨((s.data.dropWhile Char.isWhitespace).reverse.dropWhile Char.isWhitespace).reverse⟩

/-- `status_is_good` (map_originals.py lines 162–166): a falsy status
(NULL or empty) counts as good, otherwise the stripped lowercased status
must be in the healthy set. -/
def status_is_good (status : Option String) : Bool :=
  match status with
  | none => true
  | some s =>
    if s = "" then true
    else (["ok", "good", "active", "present", "verified", "ready"] : List String).contains
      (lowerStr (trimStr s))

/-- `normalize_rel_path` (lines 88–90): backslashes to slashes, then strip
leading/trailing slashes. -/
def normalize_rel_path (p : String) : String :=
  let q := p.data.map (fun c => if c = '\\' then '/' else c)
  ⟨((q.dropWhile (fun c => c = '/')).reverse.dropWhile (fun c => c = '/')).reverse⟩

/-- The sort key of `choose_canonical_candidate` (line 208):
`(-good, path_len, file_id)`, compared lexicographically. -/
def candKey (m : FileRow) : Int × Nat × Nat :=
  (-(if status_is_good m.status then 1 else 0), (normalize_rel_path m.path).length, m.file_id)

/-- Strict lexicographic order on the candidate keys. -/
def KeyLt (a b : Int × Nat × Nat) : Prop :=
  a.1 < b.1 ∨ (a.1 = b.1 ∧ (a.2.1 < b.2.1 ∨ (a.2.1 = b.2.1 ∧ a.2.2 < b.2.2)))

instance decKeyLt (a b : Int × Nat × Nat) : Decidable (KeyLt a b) :=
  inferInstanceAs (Decidable (_ ∨ _))

/-- `scored.sort(key)[0]` with Python's stable sort: the first element
attaining the minimal key.  Returns `none` on an empty bucket. -/
def minByKey (l : List FileRow) : Option FileRow :=
  match l with
  | [] => none
  | x :: xs => some (xs.foldl (fun best m =>
      if KeyLt (candKey m) (candKey best) then m else best) x)

/-- The role priority list (lines 192–197). -/
def roleOrder (allow_original_fallback : Bool) : List String :=
  if allow_original_fallback then ["library", "staging", "original"]
  else ["library", "staging"]

/-- The role loop of `choose_canonical_candidate` (lines 199–213): take
the first role whose bucket is nonempty and return its key-minimal
member. -/
def chooseFromRoles (members : List FileRow) : List String → Option FileRow
  | [] => none
  | role :: rest =>
    let bucket := members.filter (fun m => decide (lowerStr m.role = role))
    if bucket.isEmpty then chooseFromRoles members rest
    else minByKey bucket

/-- `choose_canonical_candidate` (lines 169–213). -/
def choose_canonical_candidate (members : List FileRow)
    (allow_original_fallback : Bool) : Option FileRow :=
  if members.isEmpty then none
  else chooseFromRoles members (roleOrder allow_original_fallback)

/-- A `hash_groups` row: the sha256 key and the nullable
`canonical_library_file_id`. -/
structure HashGroup where
  sha : String
  canonical : Option Nat
deriving DecidableEq

/-- Effect of `upsert_canonical`'s UPDATE on one row (map_originals.py
lines 262–279): with `force` every row with the sha is overwritten;
without it only rows whose canonical is NULL. -/
def upsertOne (sha : String) (cid : Nat) (force : Bool) (g : HashGroup) : HashGroup :=
  if force then (if g.sha = sha then ⟨g.sha, some cid⟩ else g)
  else (if g.sha = sha ∧ g.canonical = none then ⟨g.sha, some cid⟩ else g)

/-- `upsert_canonical`: the updated table and `rowcount > 0` (whether any
row matched the WHERE clause). -/
def upsert_canonical (t : List HashGroup) (sha : String) (cid : Nat) (force : Bool) :
    List HashGroup × Bool :=
  (t.map (upsertOne sha cid force),
   if force then t.any (fun g => decide (g.sha = sha))
   else t.any (fun g => decide (g.sha = sha ∧ g.canonical = none)))

/-- Net effect of one iteration of `main`'s group loop on one group:
no candidate leaves the group alone (`continue`), otherwise
`upsert_canonical` applies. -/
def resolveGroup (cand : String → Option Nat) (force : Bool) (g : HashGroup) : HashGroup :=
  match cand g.sha with
  | none => g
  | some c => upsertOne g.sha c force g

/-- One canonical-resolution run over the whole `hash_groups` table
(map_originals.py `main`, lines 452–514): iterate the snapshot of group
shas and apply `upsert_canonical` for each group with a candidate.  The
candidate function abstracts `choose_canonical_candidate` over the
group's members, which do not change during the run. -/
def resolve_run (t : List HashGroup) (cand : String → Option Nat) (force : Bool) :
    List HashGroup :=
  (t.map (fun g => g.sha)).foldl
    (fun acc sha =>
      match cand sha with
      | none => acc
      | some c => (upsert_canonical acc sha c force).1)
    t

/-! ## Scan Engine: `scan.py`

The `files` table is modelled as a map keyed by `(root_id, path)` — the
lookup key of `load_existing_file` — carrying the columns the claim is
about (`status`, `last_seen_run_id`; sizes, mtimes and media types are
elided).  Per the spec's data model the last-seen run identifier is
non-nullable (only the content hash is called out as nullable), and
`scan.py` — the only writer of the table in the sources — always sets it;
over a non-NULL column the SQL condition
`last_seen_run_id IS NOT ? AND last_seen_run_id != ?` of `mark_missing`
reduces to plain inequality. -/

structure FileRec where
  status : String
  lastSeen : Nat
deriving DecidableEq

def FilesDB : Type := Nat → String → Option FileRec

/-- The per-file write of the walk loop (scan.py lines 312–344): UPDATE of
the existing row or INSERT of a new one, either way leaving the row
`active` with `last_seen_run_id` = the current run. -/
def upsertFile (db : FilesDB) (rootId runId : Nat) (p : String) : FilesDB :=
  fun r q => if r = rootId ∧ q = p then some ⟨"active", runId⟩ else db r q

/-- The directory walk of `scan_root` (non-dry-run): each successfully
processed file is upserted. -/
def scanWalk (db : FilesDB) (rootId runId : Nat) (obs : List String) : FilesDB :=
  obs.foldl (fun d p => upsertFile d rootId runId p) db

/-- `mark_missing` (scan.py lines 191–200): set every still-`active` row
of the root whose last-seen run differs from the current run to
`missing`, also stamping `last_seen_run_id` with the current run. -/
def mark_missing (db : FilesDB) (rootId runId : Nat) : FilesDB :=
  fun r q => (db r q).map (fun f =>
    if r = rootId ∧ f.status = "active" ∧ f.lastSeen ≠ runId
    then ⟨"missing", runId⟩ else f)

/-- `scan_root` on one root (non-dry-run): walk, then `mark_missing`
(scan.py lines 390–392). -/
def scan_root_db (db : FilesDB) (rootId runId : Nat) (obs : List String) : FilesDB :=
  mark_missing (scanWalk db rootId runId obs) rootId runId

/-! ## Provenance weights: `compute_provenance_weight`

Python floats are IEEE-754 binary64 values; they are embedded as
mantissa–exponent pairs `⟨m, e⟩` of value `m·2^e` with `m` normalized to
53 bits (`B64`), and every arithmetic operation rounds its exact result
to the nearest such value, ties to even, exactly as the hardware does.
All computation is over `ℕ`/`ℤ`; the injection `B64.val` into `ℚ`
appears only in statements.  Overflow, subnormals and signs never arise
here: every quantity lies in `[0, 1.1]`.  `difflib.SequenceMatcher` is
embedded through its documented semantics: `get_matching_blocks`
recursively splits around `find_longest_match`, which returns the longest
matching contiguous block, preferring the earliest start in `a` and then
in `b`; `ratio` is `2.0*M/T` computed in float arithmetic for `M` the
total matched length and `T` the combined length (1.0 when `T` is 0). -/

/-- `split_path_parts` (map_originals.py lines 93–95): normalized path
split on `/`, dropping empty segments. -/
def split_path_parts (p : String) : List String :=
  (((normalize_rel_path p).data.splitOn '/').map (fun l => (⟨l⟩ : String))).filter
    (fun s => decide (s ≠ ""))

/-- `os.path.splitext` on a basename: split at the last dot unless every
character before it is a dot (leading-dot names keep their extension-less
form). -/
def splitextOf (name : List Char) : List Char × List Char :=
  match lastIdxOf '.' name with
  | none => (name, [])
  | some i =>
    if (name.take i).all (fun c => c = '.') then (name, [])
    else (name.take i, name.drop i)

/-- `stem_and_ext` (map_originals.py lines 98–101): basename after
backslash replacement, `os.path.splitext`, lowercase stem, lowercase
extension with leading dots stripped. -/
def stem_and_ext (path : String) : String × String :=
  let q := path.data.map (fun c => if c = '\\' then '/' else c)
  let base := (q.reverse.takeWhile (fun c => c ≠ '/')).reverse
  let se := splitextOf base
  (lowerStr ⟨se.1⟩, ⟨(se.2.dropWhile (fun c => c = '.')).map Char.toLower⟩)

/-- Length of the common prefix of two character lists. -/
def prefLen : List Char → List Char → Nat
  | a :: as, b :: bs => if a = b then prefLen as bs + 1 else 0
  | _, _ => 0

/-- All index pairs of the rectangle `[alo, ahi) × [blo, bhi)` in
lexicographic order. -/
def idxPairsIn (alo ahi blo bhi : Nat) : List (Nat × Nat) :=
  (((List.range (ahi - alo)).map (fun i => i + alo))).flatMap
    (fun i => ((List.range (bhi - blo)).map (fun j => j + blo)).map (fun j => (i, j)))

/-- Length of the matching block starting at `p`, capped to stay inside
the rectangle. -/
def matchLenAt (a b : List Char) (ahi bhi : Nat) (p : Nat × Nat) : Nat :=
  min (prefLen (a.drop p.1) (b.drop p.2)) (min (ahi - p.1) (bhi - p.2))

/-- One comparison step of `find_longest_match`: replace the best block
only on a strictly longer match, so the earliest maximal block wins. -/
def bmStep (a b : List Char) (ahi bhi : Nat) (best : Nat × Nat × Nat)
    (p : Nat × Nat) : Nat × Nat × Nat :=
  let k := matchLenAt a b ahi bhi p
  if k > best.2.2 then (p.1, p.2, k) else best

/-- `SequenceMatcher.find_longest_match` on `[alo, ahi) × [blo, bhi)`
(documented semantics: longest block, earliest in `a`, then earliest in
`b`); `(alo, blo, 0)` when there is no match. -/
def bestMatchIn (a b : List Char) (alo ahi blo bhi : Nat) : Nat × Nat × Nat :=
  (idxPairsIn alo ahi blo bhi).foldl (bmStep a b ahi bhi) (alo, blo, 0)

/-- Total matched length of `get_matching_blocks`: recursively split
around the longest match.  The fuel strictly exceeds the recursion depth
(each level shrinks the rectangle). -/
def matchTotal (a b : List Char) : Nat → Nat → Nat → Nat → Nat → Nat
  | 0, _, _, _, _ => 0
  | fuel + 1, alo, ahi, blo, bhi =>
    let m := bestMatchIn a b alo ahi blo bhi
    if m.2.2 = 0 then 0
    else m.2.2 + matchTotal a b fuel alo m.1 blo m.2.1 +
      matchTotal a b fuel (m.1 + m.2.2) ahi (m.2.1 + m.2.2) bhi

/-- Fuel-bounded base-2 logarithm: for `1 ≤ n ≤ f`, `log2fuel f n` is
`⌊log₂ n⌋`. -/
def log2fuel : Nat → Nat → Nat
  | 0, _ => 0
  | f + 1, n => if n ≤ 1 then 0 else log2fuel f (n / 2) + 1

/-- Bit length: for `n ≥ 1`, `2^(blen n - 1) ≤ n < 2^(blen n)`. -/
def blen (n : Nat) : Nat := log2fuel n n + 1

/-- A nonnegative binary64 value `m·2^e`; the rounding below keeps `m`
normalized to exactly 53 bits (`0` is `⟨0, 0⟩`), so representations are
canonical. -/
structure B64 where
  m : ℕ
  e : ℤ
deriving DecidableEq

/-- The exact rational value of a `B64`. -/
def B64.val (x : B64) : ℚ := (x.m : ℚ) * (2 : ℚ) ^ x.e

/-- Round `m·2^e` to the nearest binary64 (ties to even), normalizing
the mantissa to 53 bits.  When `m` is wider than 53 bits the low `sh`
bits decide the direction, and a carry into the 54th bit renormalizes. -/
def roundB64 (m : ℕ) (e : ℤ) : B64 :=
  if m = 0 then ⟨0, 0⟩
  else if blen m ≤ 53 then ⟨m * 2 ^ (53 - blen m), e - (53 - blen m)⟩
  else
    let sh := blen m - 53
    let q := m / 2 ^ sh
    let r := m % 2 ^ sh
    let half := 2 ^ (sh - 1)
    let q2 := if r < half then q else if half < r then q + 1 else if 2 ∣ q then q else q + 1
    if 2 ^ 53 ≤ q2 then ⟨q2 / 2, e + sh + 1⟩ else ⟨q2, e + sh⟩

/-- Binary64 multiplication: the exact product, rounded. -/
def fmulB (x y : B64) : B64 := roundB64 (x.m * y.m) (x.e + y.e)

/-- Binary64 addition: the exact sum at the common exponent, rounded. -/
def faddB (x y : B64) : B64 :=
  let e := min x.e y.e
  roundB64 (x.m * 2 ^ (x.e - e).toNat + y.m * 2 ^ (y.e - e).toNat) e

/-- Correctly rounded `(a/b)·2^e` for `b ≠ 0`: the quotient is computed
with `55 + blen b` extra bits — so at least 56 significant bits — plus a
sticky bit recording a nonzero remainder.  The sticky bit sits at least
two positions below the rounding point and is the mantissa's lowest bit,
so `roundB64`'s half-comparison (against an even power of two) decides
exactly as the infinitely precise quotient would. -/
def divRound (a b : ℕ) (e : ℤ) : B64 :=
  if a = 0 ∨ b = 0 then ⟨0, 0⟩
  else
    let k := 55 + blen b
    let q := a * 2 ^ k / b
    let r := a * 2 ^ k % b
    let s := if r = 0 then 0 else 1
    roundB64 (2 * q + s) (e - k - 1)

/-- Binary64 division. -/
def fdivB (x y : B64) : B64 := divRound x.m y.m (x.e - y.e)

/-- CPython int→float conversion (round to nearest, ties to even). -/
def flNat (n : ℕ) : B64 := roundB64 n 0

/-- Binary64 `<` (exact comparison of the represented values). -/
def fltB (x y : B64) : Bool :=
  decide (x.m * 2 ^ (x.e - min x.e y.e).toNat < y.m * 2 ^ (y.e - min x.e y.e).toNat)

/-- Python `min(a, b)`: returns `b` only when `b < a`. -/
def pyMinB (a b : B64) : B64 := if fltB b a then b else a

/-- Python `max(a, b)`: returns `b` only when `a < b`. -/
def pyMaxB (a b : B64) : B64 := if fltB a b then b else a

/-- The float literal `0.60`: the binary64 nearest to 3/5. -/
def lit060 : B64 := divRound 3 5 0

/-- The float literal `0.30`: the binary64 nearest to 3/10. -/
def lit030 : B64 := divRound 3 10 0

/-- The float literal `0.10`: the binary64 nearest to 1/10. -/
def lit010 : B64 := divRound 1 10 0

/-- `difflib._calculate_ratio`: `2.0 * matches / length` in float
arithmetic (both ints converted to float), `1.0` when `length` is 0. -/
def calculate_ratio (a b : List Char) : B64 :=
  if a.length + b.length = 0 then flNat 1
  else fdivB (fmulB (flNat 2) (flNat (matchTotal a b (a.length + b.length + 1) 0 a.length 0
    b.length))) (flNat (a.length + b.length))

/-- `seq_similarity` (map_originals.py lines 104–109). -/
def seq_similarity (a b : String) : B64 :=
  if a = "" ∧ b = "" then flNat 1
  else if a = "" ∨ b = "" then flNat 0
  else calculate_ratio a.data b.data

/-- `jaccard` (lines 112–118): `len(sa & sb) / len(sa | sb)` — a CPython
int/int true division, i.e. the correctly rounded binary64 quotient
(1.0 on two empty sets, 0.0 when exactly one is empty). -/
def jaccard (a b : List String) : B64 :=
  if a.toFinset = ∅ ∧ b.toFinset = ∅ then flNat 1
  else if a.toFinset = ∅ ∨ b.toFinset = ∅ then flNat 0
  else divRound (a.toFinset ∩ b.toFinset).card (a.toFinset ∪ b.toFinset).card 0

/-- `(x or y or "").lower().lstrip(".")` on an optional DB extension `x`
and fallback `y` (map_originals.py lines 231–232). -/
def pyExt (o : Option String) (d : String) : String :=
  let raw := match o with
    | some s => if s = "" then d else s
    | none => d
  ⟨(raw.data.map Char.toLower).dropWhile (fun c => c = '.')⟩

/-- `compute_provenance_weight` (map_originals.py lines 216–242): the
float sum `0.60*stem_sim + 0.30*dir_sim + 0.10*ext_match` (left
associated, each step rounded), clamped by `max(0.0, min(1.0, ·))`.
The human-readable note string is elided. -/
def compute_provenance_weight (original_path canonical_path : String)
    (original_ext canonical_ext : Option String) : B64 :=
  let op := normalize_rel_path original_path
  let cp := normalize_rel_path canonical_path
  let o_parts := split_path_parts op
  let c_parts := split_path_parts cp
  let ose := stem_and_ext op
  let cse := stem_and_ext cp
  let ox := pyExt original_ext ose.2
  let cx := pyExt canonical_ext cse.2
  let stem_sim := seq_similarity ose.1 cse.1
  let dir_sim := jaccard o_parts.dropLast c_parts.dropLast
  let ext_match : B64 := if ox ≠ "" ∧ cx ≠ "" ∧ ox = cx then flNat 1 else flNat 0
  let weight := faddB (faddB (fmulB lit060 stem_sim) (fmulB lit030 dir_sim))
    (fmulB lit010 ext_match)
  pyMaxB (flNat 0) (pyMinB (flNat 1) weight)

/-- The provenance-insertion loop of `main` (map_originals.py lines
528–543) for the `original`-role members of one group: rows whose float
weight compares `<` the configured minimum are dropped, the rest are
inserted as `(original_file_id, weight)`. -/
def provenance_rows (originals : List FileRow) (canonical_path : String)
    (canonical_ext : Option String) (min_weight : B64) : List (Nat × B64) :=
  originals.filterMap (fun o =>
    let w := compute_provenance_weight o.path canonical_path o.ext canonical_ext
    if fltB w min_weight then none else some (o.file_id, w))

/-- Characterization of the `verified` classification: exactly when both
paths exist, both stats succeed, the on-disk sizes agree, and both content
hashes are computed successfully and are equal. -/
theorem verify_row_verified_iff (fs : VFS) (row : VRow) :
    (verify_row fs row).status = "verified" ↔
      ∃ sInfo dInfo h,
        fs row.source_path = some sInfo ∧
        fs row.destination_path = some dInfo ∧
        sInfo.statOk = true ∧ dInfo.statOk = true ∧
        sInfo.size = dInfo.size ∧
        sInfo.hashRes = some h ∧ dInfo.hashRes = some h := by
  rcases hs : fs row.source_path with _ | sInfo
  · simp [verify_row, hs]
  rcases hd : fs row.destination_path with _ | dInfo
  · simp [verify_row, hs, hd]
  by_cases hstat : sInfo.statOk = true ∧ dInfo.statOk = true
  · by_cases hsz : sInfo.size = dInfo.size
    · rcases hsh : sInfo.hashRes with _ | sh
      · simp [verify_row, hs, hd, hstat.1, hstat.2, hsz, hsh]
      rcases hdh : dInfo.hashRes with _ | dh
      · simp [verify_row, hs, hd, hstat.1, hstat.2, hsz, hsh, hdh]
      by_cases heq : sh = dh
      · subst heq
        simp [verify_row, hs, hd, hstat.1, hstat.2, hsz, hsh, hdh]
      · simp only [verify_row, hs, hd, not_and, hstat.1, hstat.2, hsz, hsh, hdh]
        simp [heq, hsz]
        intro _ _ x hx
        rw [hsh] at hx
        cases hx
        rw [hdh]
        exact fun hcon => heq (Option.some.inj hcon.symm)
    · simp only [verify_row, hs, hd]
      rw [if_neg (not_not_intro hstat), if_pos hsz]
      simp [hsz]
  · simp only [verify_row, hs, hd]
    rw [if_pos hstat]
    simp
    intro hsOk hdOk
    exact absurd ⟨hsOk, hdOk⟩ hstat

/-- C6: For every Verify input row: a missing source path, a missing
destination path, or differing on-disk sizes each classify the row
`unverified` with the corresponding specific note and with no content hash
computed (both hash columns stay empty); and the row is classified
`verified` exactly when both content hashes are computed successfully and
are equal (which requires both paths to exist, stats to succeed and sizes
to match). -/
theorem C6_verify_row_classification (fs : VFS) (row : VRow) :
    (fs row.source_path = none →
      (verify_row fs row).status = "unverified" ∧
      (verify_row fs row).notes = ["source missing"] ∧
      (verify_row fs row).source_hash = "" ∧ (verify_row fs row).destination_hash = "") ∧
    (∀ sInfo, fs row.source_path = some sInfo → fs row.destination_path = none →
      (verify_row fs row).status = "unverified" ∧
      (verify_row fs row).notes = ["destination missing"] ∧
      (verify_row fs row).source_hash = "" ∧ (verify_row fs row).destination_hash = "") ∧
    (∀ sInfo dInfo, fs row.source_path = some sInfo → fs row.destination_path = some dInfo →
      sInfo.statOk = true → dInfo.statOk = true → sInfo.size ≠ dInfo.size →
      (verify_row fs row).status = "unverified" ∧
      "size mismatch" ∈ (verify_row fs row).notes ∧
      (verify_row fs row).source_hash = "" ∧ (verify_row fs row).destination_hash = "") ∧
    ((verify_row fs row).status = "verified" ↔
      ∃ sInfo dInfo h,
        fs row.source_path = some sInfo ∧
        fs row.destination_path = some dInfo ∧
        sInfo.statOk = true ∧ dInfo.statOk = true ∧
        sInfo.size = dInfo.size ∧
        sInfo.hashRes = some h ∧ dInfo.hashRes = some h) := by
  refine ⟨?_, ?_, ?_, verify_row_verified_iff fs row⟩
  · intro hs
    simp [verify_row, hs]
  · intro sInfo hs hd
    simp [verify_row, hs, hd]
  · intro sInfo dInfo hs hd hsOk hdOk hsz
    simp only [verify_row, hs, hd]
    rw [if_neg (not_not_intro ⟨hsOk, hdOk⟩), if_pos hsz]
    simp

/-- Witness for C6 at a concrete filesystem and row: the source is missing,
so the row is `unverified` with note `source missing` and empty hashes. -/
theorem C6_verify_row_classification_witness :
    (verify_row (fun _ => none) ⟨"s", "d", "10", "r"⟩).status = "unverified" ∧
    (verify_row (fun _ => none) ⟨"s", "d", "10", "r"⟩).notes = ["source missing"] ∧
    (verify_row (fun _ => none) ⟨"s", "d", "10", "r"⟩).source_hash = "" ∧
    (verify_row (fun _ => none) ⟨"s", "d", "10", "r"⟩).destination_hash = "" :=
  (C6_verify_row_classification (fun _ => none) ⟨"s", "d", "10", "r"⟩).1 rfl

/-- C10: the Verify classification is independent of the CSV
`file_size_bytes` column — two rows identical except for that column get
the same status against the same filesystem — and when the on-disk sizes
and both hashes agree, the row is `verified` and its notes are exactly the
CSV-size comparison notes (a CSV disagreement only adds a note). -/
theorem C10_verify_status_independent_of_csv_size (fs : VFS) (row : VRow) (s₁ s₂ : String) :
    ((verify_row fs { row with file_size_bytes := s₁ }).status =
      (verify_row fs { row with file_size_bytes := s₂ }).status) ∧
    (∀ sInfo dInfo h, fs row.source_path = some sInfo → fs row.destination_path = some dInfo →
      sInfo.statOk = true → dInfo.statOk = true → sInfo.size = dInfo.size →
      sInfo.hashRes = some h → dInfo.hashRes = some h →
      (verify_row fs row).status = "verified" ∧
      (verify_row fs row).notes = csvSizeNotes row.file_size_bytes sInfo.size dInfo.size) := by
  constructor
  · rcases hs : fs row.source_path with _ | sInfo
    · simp [verify_row, hs]
    rcases hd : fs row.destination_path with _ | dInfo
    · simp [verify_row, hs, hd]
    by_cases hstat : sInfo.statOk = true ∧ dInfo.statOk = true
    · by_cases hsz : sInfo.size = dInfo.size
      · rcases hsh : sInfo.hashRes with _ | sh
        · simp [verify_row, hs, hd, hstat.1, hstat.2, hsz, hsh]
        rcases hdh : dInfo.hashRes with _ | dh
        · simp [verify_row, hs, hd, hstat.1, hstat.2, hsz, hsh, hdh]
        by_cases heq : sh = dh
        · subst heq
          simp [verify_row, hs, hd, hstat.1, hstat.2, hsz, hsh, hdh]
        · simp [verify_row, hs, hd, hstat.1, hstat.2, hsz, hsh, hdh, heq]
      · simp [verify_row, hs, hd, hstat.1, hstat.2, hsz]
    · simp [verify_row, hs, hd, hstat]
  · intro sInfo dInfo h hs hd hsOk hdOk hsz hsh hdh
    simp [verify_row, hs, hd, hsOk, hdOk, hsz, hsh, hdh]

/-- Witness for C10 at a concrete filesystem where the CSV size column
(`"10"`) disagrees with the equal on-disk sizes (7): the row is still
`verified` and the notes are exactly the two CSV-mismatch notes. -/
theorem C10_verify_status_independent_of_csv_size_witness :
    (verify_row
        (fun p => if p = "s" ∨ p = "d" then some ⟨true, 7, some "h"⟩ else none)
        ⟨"s", "d", "10", "r"⟩).status = "verified" ∧
    (verify_row
        (fun p => if p = "s" ∨ p = "d" then some ⟨true, 7, some "h"⟩ else none)
        ⟨"s", "d", "10", "r"⟩).notes =
      ["source size mismatch vs csv", "destination size mismatch vs csv"] :=
  ((C10_verify_status_independent_of_csv_size
      (fun p => if p = "s" ∨ p = "d" then some ⟨true, 7, some "h"⟩ else none)
      ⟨"s", "d", "10", "r"⟩ "10" "10").2
    ⟨true, 7, some "h"⟩ ⟨true, 7, some "h"⟩ "h"
    (by decide) (by decide) rfl rfl rfl rfl rfl)

/-- Among the first `fs.length + 1` candidate suffixes one is always free
(pigeonhole: the candidates are pairwise distinct paths). -/
theorem exists_free_suffix (fs : List FPath) (b : String) :
    ∃ i ∈ List.range (fs.length + 1), FPath.mk b (i + 2) ∉ fs := by
  by_contra hcon
  push_neg at hcon
  have hinj : Function.Injective (fun i : Nat => FPath.mk b (i + 2)) := by
    intro i j hij
    simpa [FPath.mk.injEq] using hij
  have hnodup : ((List.range (fs.length + 1)).map (fun i => FPath.mk b (i + 2))).Nodup :=
    (List.nodup_range _).map hinj
  have hsub : ((List.range (fs.length + 1)).map (fun i => FPath.mk b (i + 2))) ⊆ fs := by
    intro x hx
    rcases List.mem_map.mp hx with ⟨i, hi, rfl⟩
    exact hcon i hi
  have hlen := (hnodup.subperm hsub).length_le
  simp at hlen

/-- Helper: one prevalidation step never shrinks the mismatch list. -/
theorem prevalStep_len_le (e : String) (acc : Option String × List (Nat × String))
    (ir : Nat × DRow) : acc.2.length ≤ (prevalStep e acc ir).2.length := by
  unfold prevalStep
  dsimp only
  split
  · simp
  · split
    · simp
    · simp

/-- Helper: the prevalidation fold never shrinks the mismatch list. -/
theorem preval_foldl_len_le (e : String) :
    ∀ (l : List (Nat × DRow)) (acc : Option String × List (Nat × String)),
    acc.2.length ≤ (l.foldl (prevalStep e) acc).2.length
  | [], _ => le_refl _
  | ir :: l, acc =>
    le_trans (prevalStep_len_le e acc ir) (preval_foldl_len_le e l (prevalStep e acc ir))

/-- Helper: with an explicit expected run id, a scanned row whose nonempty
run id differs forces a nonempty mismatch list. -/
theorem preval_foldl_ne_nil (e : String) (he : e ≠ "auto") (l : List (Nat × DRow)) :
    ∀ acc, (∃ ir ∈ l, ir.2.run_id ≠ "" ∧ ir.2.run_id ≠ e) →
    (l.foldl (prevalStep e) acc).2 ≠ [] := by
  induction l with
  | nil =>
    intro acc h
    rcases h with ⟨ir, hmem, _⟩
    cases hmem
  | cons a l ih =>
    intro acc h
    rcases h with ⟨ir, hmem, hne, hneq⟩
    rcases List.mem_cons.mp hmem with rfl | hmem2
    · have hstep : (prevalStep e acc ir).2.length = acc.2.length + 1 := by
        simp [prevalStep, hne, he, hneq]
      rw [List.foldl_cons]
      refine List.length_pos.mp ?_
      calc 0 < acc.2.length + 1 := Nat.succ_pos _
        _ = (prevalStep e acc ir).2.length := hstep.symm
        _ ≤ _ := preval_foldl_len_le e l _
    · rw [List.foldl_cons]
      exact ih _ ⟨ir, hmem2, hne, hneq⟩

/-- Helper: one dedupe scan step keeps the inferred run id once set. -/
theorem dedupeStep_fst (e : String) (acc : Option String × List (Nat × String))
    (ir : Nat × DedupeRow) (x : String) (h : acc.1 = some x) :
    (dedupeStep e acc ir).1 = some x := by
  by_cases h1 : ir.2.run_id = ""
  · simp [dedupeStep, h1, h]
  · by_cases h2 : e = "auto"
    · by_cases h3 : ir.2.run_id = x
      · have h4 : x ≠ "" := h3 ▸ h1
        simp [dedupeStep, h1, h2, h3, h, h4]
      · simp [dedupeStep, h1, h2, h3, h]
    · by_cases h3 : ir.2.run_id = e
      · have h4 : e ≠ "" := h3 ▸ h1
        simp [dedupeStep, h1, h2, h3, h, h4]
      · simp [dedupeStep, h1, h2, h3, h]

/-- Helper: one dedupe scan step never shrinks the mismatch list. -/
theorem dedupeStep_len_le (e : String) (acc : Option String × List (Nat × String))
    (ir : Nat × DedupeRow) : acc.2.length ≤ (dedupeStep e acc ir).2.length := by
  by_cases h1 : ir.2.run_id = ""
  · simp [dedupeStep, h1]
  · by_cases h2 : e = "auto"
    · rcases hacc : acc.1 with _ | y
      · simp [dedupeStep, h1, h2, hacc]
      · by_cases h3 : ir.2.run_id = y
        · have h4 : y ≠ "" := h3 ▸ h1
          simp [dedupeStep, h1, h2, h3, hacc, h4]
        · simp [dedupeStep, h1, h2, h3, hacc]
    · by_cases h3 : ir.2.run_id = e
      · have h4 : e ≠ "" := h3 ▸ h1
        simp [dedupeStep, h1, h2, h3, h4]
      · simp [dedupeStep, h1, h2, h3]

/-- Helper: the dedupe scan fold never shrinks the mismatch list. -/
theorem dedupe_foldl_len_le (e : String) :
    ∀ (l : List (Nat × DedupeRow)) (acc : Option String × List (Nat × String)),
    acc.2.length ≤ (l.foldl (dedupeStep e) acc).2.length
  | [], _ => le_refl _
  | ir :: l, acc =>
    le_trans (dedupeStep_len_le e acc ir) (dedupe_foldl_len_le e l (dedupeStep e acc ir))

/-- Helper: once the dedupe scan has inferred run id `x` in auto mode, any
later row with a nonempty run id different from `x` forces a nonempty
mismatch list. -/
theorem dedupe_foldl_ne_nil (x : String) (rest : List DedupeRow) :
    ∀ (n : Nat) (acc : Option String × List (Nat × String)), acc.1 = some x →
    (∃ r ∈ rest, r.run_id ≠ "" ∧ r.run_id ≠ x) →
    ((rest.enumFrom n).foldl (dedupeStep "auto") acc).2 ≠ [] := by
  induction rest with
  | nil =>
    intro n acc _ h
    rcases h with ⟨r, hmem, _⟩
    cases hmem
  | cons a rest ih =>
    intro n acc hacc h
    rw [show ((a :: rest).enumFrom n) = (n, a) :: rest.enumFrom (n + 1) from rfl,
      List.foldl_cons]
    rcases h with ⟨r, hmem, hne, hneq⟩
    rcases List.mem_cons.mp hmem with rfl | hmem2
    · have hstep : (dedupeStep "auto" acc (n, r)).2.length = acc.2.length + 1 := by
        simp [dedupeStep, hne, hacc, hneq]
      refine List.length_pos.mp ?_
      calc 0 < acc.2.length + 1 := Nat.succ_pos _
        _ = (dedupeStep "auto" acc (n, r)).2.length := hstep.symm
        _ ≤ _ := dedupe_foldl_len_le "auto" _ _
    · exact ih (n + 1) _ (dedupeStep_fst "auto" acc (n, a) x hacc) ⟨r, hmem2, hne, hneq⟩

/-- C1 (amended): run-id validation as the code implements it.  With an
explicit expected run id, Apply-Deletion's prevalidation flags every
scanned row whose nonempty run id differs; a non-empty mismatch list makes
Apply-Deletion abort before any mutation, with zero output rows, the
filesystem unchanged, and a non-zero exit.  Dedupe additionally implements
the auto mode: the first row's run id becomes the expected value and any
later row with a nonempty differing run id is flagged.  (Apply-Deletion's
auto mode infers but does not compare, and Verify has no run-id validation
at all — see the counterexample.) -/
theorem C1_run_id_validation :
    (∀ (manifest : List DRow) (e : String) (off lim : Nat), e ≠ "auto" →
      (∃ ir ∈ ((manifest.enum).drop off).take lim, ir.2.run_id ≠ "" ∧ ir.2.run_id ≠ e) →
      (prevalidate_run_ids manifest e off lim).2 ≠ []) ∧
    (∀ (args : DelArgs) (manifest : List DRow) (fs : List FPath),
      (args.delete_permanently = false ∨ args.yes_really_delete = true) →
      (prevalidate_run_ids manifest args.expected_run_id args.offset args.limit).2 ≠ [] →
      apply_deletion_run args manifest fs =
        ⟨some "Run ID validation failed; aborting without changes.", [], fs⟩) ∧
    (∀ (r₀ : DedupeRow) (rest : List DedupeRow), r₀.run_id ≠ "" →
      (∃ r ∈ rest, r.run_id ≠ "" ∧ r.run_id ≠ r₀.run_id) →
      (dedupe_scan_mismatches (r₀ :: rest) "auto").2 ≠ []) := by
  refine ⟨?_, ?_, ?_⟩
  · intro manifest e off lim he hbad
    unfold prevalidate_run_ids
    exact preval_foldl_ne_nil e he _ _ hbad
  · intro args manifest fs hguard hpv
    rcases hguard with h | h
    · simp [apply_deletion_run, h, hpv]
    · simp [apply_deletion_run, h, hpv]
  · intro r₀ rest h0 hbad
    unfold dedupe_scan_mismatches
    have henum : (r₀ :: rest).enum = (0, r₀) :: rest.enumFrom 1 := rfl
    rw [henum, List.foldl_cons]
    have hstep : dedupeStep "auto" (none, []) (0, r₀) = (some r₀.run_id, []) := by
      simp [dedupeStep, h0]
    rw [hstep]
    exact dedupe_foldl_ne_nil r₀.run_id rest 1 _ rfl hbad

/-- Witness for C1 (amended): a two-row manifest with run ids `R1`, `R2`
and explicit expected id `R1` yields a non-empty mismatch list in
Apply-Deletion's prevalidation, which then aborts with zero output rows and
an unchanged filesystem; Dedupe in auto mode also flags the batch. -/
theorem C1_run_id_validation_witness :
    (prevalidate_run_ids [⟨"R1", "verified", "f1"⟩, ⟨"R2", "verified", "f2"⟩] "R1" 0 500).2 ≠ [] ∧
    apply_deletion_run ⟨false, false, false, "R1", 0, 500, "Q"⟩
        [⟨"R1", "verified", "f1"⟩, ⟨"R2", "verified", "f2"⟩] [⟨"f1", 0⟩, ⟨"f2", 0⟩] =
      ⟨some "Run ID validation failed; aborting without changes.", [], [⟨"f1", 0⟩, ⟨"f2", 0⟩]⟩ ∧
    (dedupe_scan_mismatches [⟨"R1", "verified", "d1"⟩, ⟨"R2", "verified", "d2"⟩] "auto").2 ≠ [] := by
  have h1 := C1_run_id_validation.1 [⟨"R1", "verified", "f1"⟩, ⟨"R2", "verified", "f2"⟩]
    "R1" 0 500 (by decide) ⟨(1, ⟨"R2", "verified", "f2"⟩), by decide, by decide, by decide⟩
  have h2 := C1_run_id_validation.2.1 ⟨false, false, false, "R1", 0, 500, "Q"⟩
    [⟨"R1", "verified", "f1"⟩, ⟨"R2", "verified", "f2"⟩] [⟨"f1", 0⟩, ⟨"f2", 0⟩]
    (Or.inl rfl) h1
  have h3 := C1_run_id_validation.2.2 ⟨"R1", "verified", "d1"⟩ [⟨"R2", "verified", "d2"⟩]
    (by decide) ⟨⟨"R2", "verified", "d2"⟩, by decide, by decide, by decide⟩
  exact ⟨h1, h2, h3⟩

/-- C1 counterexample: the claim as stated is false.  With
`--expected-run-id auto`, an Apply-Deletion batch whose two rows carry the
differing run ids `A` and `B` is NOT aborted: prevalidation reports no
mismatch (the comparison is guarded by `expected_run_id != "auto"`), the
run exits cleanly, writes two output rows, and mutates the filesystem. -/
theorem C1_run_id_validation_counterexample :
    (prevalidate_run_ids [⟨"A", "verified", "f1"⟩, ⟨"B", "verified", "f2"⟩] "auto" 0 500).2
      = [] ∧
    (apply_deletion_run ⟨false, false, false, "auto", 0, 500, "Q"⟩
        [⟨"A", "verified", "f1"⟩, ⟨"B", "verified", "f2"⟩]
        [⟨"f1", 0⟩, ⟨"f2", 0⟩]).exitError = none ∧
    (apply_deletion_run ⟨false, false, false, "auto", 0, 500, "Q"⟩
        [⟨"A", "verified", "f1"⟩, ⟨"B", "verified", "f2"⟩]
        [⟨"f1", 0⟩, ⟨"f2", 0⟩]).out.length = 2 ∧
    (apply_deletion_run ⟨false, false, false, "auto", 0, 500, "Q"⟩
        [⟨"A", "verified", "f1"⟩, ⟨"B", "verified", "f2"⟩]
        [⟨"f1", 0⟩, ⟨"f2", 0⟩]).fs ≠ [⟨"f1", 0⟩, ⟨"f2", 0⟩] ∧
    ("A" : String) ≠ "B" := by
  refine ⟨by decide, by decide, by decide, by decide, by decide⟩

/-- C2: Apply-Deletion invoked with `--delete-permanently` but without
`--yes-really-delete` refuses up front: for every manifest and filesystem
it exits with the explicit refusal message, performs no filesystem
mutation, and writes no output row. -/
theorem C2_refuse_without_confirmation (args : DelArgs) (manifest : List DRow)
    (fs : List FPath) (h1 : args.delete_permanently = true)
    (h2 : args.yes_really_delete = false) :
    apply_deletion_run args manifest fs =
      ⟨some "Refusing to delete permanently without --yes-really-delete.", [], fs⟩ := by
  simp [apply_deletion_run, h1, h2]

/-- Witness for C2 at a concrete argument set, manifest and filesystem. -/
theorem C2_refuse_without_confirmation_witness :
    apply_deletion_run ⟨true, false, false, "R1", 0, 10, "Q"⟩
        [⟨"R1", "verified", "f1"⟩] [⟨"f1", 0⟩] =
      ⟨some "Refusing to delete permanently without --yes-really-delete.", [],
        [⟨"f1", 0⟩]⟩ :=
  C2_refuse_without_confirmation ⟨true, false, false, "R1", 0, 10, "Q"⟩
    [⟨"R1", "verified", "f1"⟩] [⟨"f1", 0⟩] rfl rfl

/-- C3 (spec-modelled): when a quarantine move targets a destination whose
name already exists, `get_unique_destination_path` resolves the collision
by appending a numeric suffix (≥ 2) to the same base name, the produced
path is not on disk, and the move to it succeeds. -/
theorem C3_collision_resolved_by_suffix (fs : List FPath) (b : String) (src : FPath)
    (hsrc : src ∈ fs) (hcol : FPath.mk b 0 ∈ fs) :
    (get_unique_destination_path fs b).base = b ∧
    2 ≤ (get_unique_destination_path fs b).suffix ∧
    get_unique_destination_path fs b ∉ fs ∧
    shutil_move fs src (get_unique_destination_path fs b) =
      some (get_unique_destination_path fs b :: fs.erase src) := by
  obtain ⟨i, hi, hfree⟩ := exists_free_suffix fs b
  rcases hfind : (List.range (fs.length + 1)).find?
      (fun i => decide (FPath.mk b (i + 2) ∉ fs)) with _ | j
  · exfalso
    have := List.find?_eq_none.mp hfind i hi
    simp [hfree] at this
  · have hj : FPath.mk b (j + 2) ∉ fs := by
      have := List.find?_some hfind
      exact of_decide_eq_true this
    have hdest : get_unique_destination_path fs b = FPath.mk b (j + 2) := by
      unfold get_unique_destination_path
      rw [if_pos hcol, hfind]
    rw [hdest]
    refine ⟨rfl, Nat.le_add_left 2 j, hj, ?_⟩
    unfold shutil_move
    rw [if_pos ⟨hsrc, hj⟩]

/-- Witness for C3: quarantining `a` when `Q/a` already exists in the
quarantine tree produces the suffixed path `Q/a (2)` and the move
succeeds. -/
theorem C3_collision_resolved_by_suffix_witness :
    (get_unique_destination_path [⟨"Q/a", 0⟩, ⟨"a", 0⟩] "Q/a").base = "Q/a" ∧
    2 ≤ (get_unique_destination_path [⟨"Q/a", 0⟩, ⟨"a", 0⟩] "Q/a").suffix ∧
    get_unique_destination_path [⟨"Q/a", 0⟩, ⟨"a", 0⟩] "Q/a" ∉ [(⟨"Q/a", 0⟩ : FPath), ⟨"a", 0⟩] ∧
    shutil_move [⟨"Q/a", 0⟩, ⟨"a", 0⟩] ⟨"a", 0⟩
        (get_unique_destination_path [⟨"Q/a", 0⟩, ⟨"a", 0⟩] "Q/a") =
      some (get_unique_destination_path [⟨"Q/a", 0⟩, ⟨"a", 0⟩] "Q/a"
        :: [⟨"Q/a", 0⟩, ⟨"a", 0⟩].erase ⟨"a", 0⟩) :=
  C3_collision_resolved_by_suffix [⟨"Q/a", 0⟩, ⟨"a", 0⟩] "Q/a" ⟨"a", 0⟩
    (by decide) (by decide)

/-- Fold invariant for `_choose_canonical`: starting from a best of the
form `(b, score b)`, the fold returns a member (or `b`) carrying its own
score, maximal among all scores seen, and lexicographically least among
the seen entries attaining that score. -/
theorem chooseStep_fold (l : List String) : ∀ b : String,
    ∃ p : String × Int, l.foldl chooseStep (some (b, score_destination b)) = some p ∧
      p.2 = score_destination p.1 ∧ (p.1 = b ∨ p.1 ∈ l) ∧
      score_destination b ≤ p.2 ∧ (∀ e ∈ l, score_destination e ≤ p.2) ∧
      (score_destination b = p.2 → p.1 ≤ b) ∧
      (∀ e ∈ l, score_destination e = p.2 → p.1 ≤ e) := by
  induction l with
  | nil =>
    intro b
    exact ⟨(b, score_destination b), rfl, rfl, Or.inl rfl, le_refl _, by simp,
      fun _ => le_refl b, by simp⟩
  | cons a l ih =>
    intro b
    rw [List.foldl_cons]
    by_cases hgt : score_destination a > score_destination b
    · have hstep : chooseStep (some (b, score_destination b)) a =
          some (a, score_destination a) := by
        simp [chooseStep, hgt]
      rw [hstep]
      obtain ⟨p, hfold, hscore, hmem, hbase, hall, htieb, htie⟩ := ih a
      refine ⟨p, hfold, hscore, ?_, ?_, ?_, ?_, ?_⟩
      · rcases hmem with h | h
        · exact Or.inr (h ▸ List.mem_cons_self a l)
        · exact Or.inr (List.mem_cons_of_mem a h)
      · exact le_trans (le_of_lt hgt) hbase
      · intro e he
        rcases List.mem_cons.mp he with rfl | he2
        · exact hbase
        · exact hall e he2
      · intro hb
        exact absurd hb (ne_of_lt (lt_of_lt_of_le hgt hbase))
      · intro e he hsc
        rcases List.mem_cons.mp he with rfl | he2
        · exact htieb hsc
        · exact htie e he2 hsc
    · by_cases htiecase : score_destination a = score_destination b ∧ a < b
      · have hstep : chooseStep (some (b, score_destination b)) a =
            some (a, score_destination a) := by
          simp [chooseStep, hgt, htiecase.1, htiecase.2]
        rw [hstep]
        obtain ⟨p, hfold, hscore, hmem, hbase, hall, htieb, htie⟩ := ih a
        refine ⟨p, hfold, hscore, ?_, ?_, ?_, ?_, ?_⟩
        · rcases hmem with h | h
          · exact Or.inr (h ▸ List.mem_cons_self a l)
          · exact Or.inr (List.mem_cons_of_mem a h)
        · exact le_of_eq_of_le htiecase.1.symm hbase
        · intro e he
          rcases List.mem_cons.mp he with rfl | he2
          · exact hbase
          · exact hall e he2
        · intro hb
          exact le_trans (htieb (htiecase.1 ▸ hb)) (le_of_lt htiecase.2)
        · intro e he hsc
          rcases List.mem_cons.mp he with rfl | he2
          · exact htieb hsc
          · exact htie e he2 hsc
      · have hstep : chooseStep (some (b, score_destination b)) a =
            some (b, score_destination b) := by
          unfold chooseStep
          dsimp only
          rw [if_neg hgt, if_neg htiecase]
        rw [hstep]
        obtain ⟨p, hfold, hscore, hmem, hbase, hall, htieb, htie⟩ := ih b
        refine ⟨p, hfold, hscore, ?_, hbase, ?_, htieb, ?_⟩
        · rcases hmem with h | h
          · exact Or.inl h
          · exact Or.inr (List.mem_cons_of_mem a h)
        · intro e he
          rcases List.mem_cons.mp he with rfl | he2
          · exact le_trans (le_of_not_lt hgt) hbase
          · exact hall e he2
        · intro e he hsc
          rcases List.mem_cons.mp he with rfl | he2
          · rcases lt_or_eq_of_le (le_of_not_lt hgt) with hlt | heq
            · exact absurd hsc (ne_of_lt (lt_of_lt_of_le hlt hbase))
            · refine le_trans (htieb (heq ▸ hsc)) ?_
              rcases not_and_or.mp htiecase with h | h
              · exact absurd heq h
              · exact le_of_not_lt h
          · exact htie e he2 hsc

/-- C4 (amended): within a Dedupe group `_choose_canonical` selects the
maximum-score entry, with ties broken by the lexicographically smaller
path string; consequently a name with a Windows duplicate suffix `" (n)"`
is never selected while a suffix-free member has a strictly higher score,
or an equal score and a lexicographically smaller path — but an equal-score
suffix-free member with a lexicographically larger path does not prevent
it (see the counterexample). -/
theorem C4_choose_canonical_max_score (entries : List String) (best : String)
    (h : choose_canonical entries = some best) :
    best ∈ entries ∧
    (∀ e ∈ entries, score_destination e ≤ score_destination best) ∧
    (∀ e ∈ entries, score_destination e = score_destination best → best ≤ e) ∧
    (∀ e ∈ entries, has_duplicate_suffix (pathStem best) = true →
      has_duplicate_suffix (pathStem e) = false →
      score_destination e < score_destination best ∨
        (score_destination e = score_destination best ∧ best ≤ e)) := by
  match entries with
  | [] => exact absurd h (by simp [choose_canonical])
  | a :: l =>
    obtain ⟨p, hfold, hscore, hmem, hbase, hall, htieb, htie⟩ := chooseStep_fold l a
    have hfold2 : choose_canonical (a :: l) = some p.1 := by
      unfold choose_canonical
      rw [List.foldl_cons]
      have hinit : chooseStep none a = some (a, score_destination a) := rfl
      rw [hinit, hfold]
      rfl
    have hbest : p.1 = best := by
      rw [hfold2] at h
      exact Option.some.inj h
    subst hbest
    have hmem2 : p.1 ∈ a :: l := by
      rcases hmem with h | h
      · exact h ▸ List.mem_cons_self a l
      · exact List.mem_cons_of_mem a h
    have hallmax : ∀ e ∈ a :: l, score_destination e ≤ score_destination p.1 := by
      intro e he
      rcases List.mem_cons.mp he with rfl | he2
      · exact hscore ▸ hbase
      · exact hscore ▸ hall e he2
    have htiemin : ∀ e ∈ a :: l,
        score_destination e = score_destination p.1 → p.1 ≤ e := by
      intro e he hsc
      rcases List.mem_cons.mp he with rfl | he2
      · exact htieb (hsc.trans hscore.symm)
      · exact htie e he2 (hsc.trans hscore.symm)
    refine ⟨hmem2, hallmax, htiemin, ?_⟩
    intro e he _ _
    rcases lt_or_eq_of_le (hallmax e he) with hlt | heq
    · exact Or.inl hlt
    · exact Or.inr ⟨heq, htiemin e he heq⟩

/-- Witness for C4 at a concrete two-entry group: `a.jpg` wins the
equal-score tie against `b.jpg` by the smaller path string. -/
theorem C4_choose_canonical_max_score_witness :
    "a.jpg" ∈ ["b.jpg", "a.jpg"] ∧
    score_destination "b.jpg" ≤ score_destination "a.jpg" ∧
    ("a.jpg" : String) ≤ "b.jpg" := by
  have hch : choose_canonical ["b.jpg", "a.jpg"] = some "a.jpg" := by
    have hlt : ("a.jpg" : String) < "b.jpg" := String.lt_iff_toList_lt.mpr (by decide)
    unfold choose_canonical
    simp only [List.foldl_cons, List.foldl_nil]
    have h1 : chooseStep none "b.jpg" = some ("b.jpg", score_destination "b.jpg") := rfl
    rw [h1]
    unfold chooseStep
    dsimp only
    rw [if_neg (by decide), if_pos ⟨by decide, hlt⟩]
    rfl
  have h := C4_choose_canonical_max_score ["b.jpg", "a.jpg"] "a.jpg" hch
  exact ⟨h.1, h.2.1 "b.jpg" (by simp), h.2.2.1 "b.jpg" (by simp) (by decide)⟩

/-- C4 counterexample: the claim "the selected canonical is never a
filename containing `\" (2)\"` when a suffix-free member of the same group
has an *equal* or higher score" is false: in the group
`["abcdefg1 (2).jpg", "zz.jpg"]` both stems score 4, the suffix-free
`zz.jpg` ties, and the lexicographic tie-break selects the duplicate-suffix
name `abcdefg1 (2).jpg` as canonical. -/
theorem C4_duplicate_suffix_counterexample :
    choose_canonical ["abcdefg1 (2).jpg", "zz.jpg"] = some "abcdefg1 (2).jpg" ∧
    has_duplicate_suffix (pathStem "abcdefg1 (2).jpg") = true ∧
    has_duplicate_suffix (pathStem "zz.jpg") = false ∧
    score_destination "abcdefg1 (2).jpg" ≤ score_destination "zz.jpg" := by
  have hch : choose_canonical ["abcdefg1 (2).jpg", "zz.jpg"] =
      some "abcdefg1 (2).jpg" := by
    have hlt : ¬ (("zz.jpg" : String) < "abcdefg1 (2).jpg") := fun h => by
      have h2 := String.lt_iff_toList_lt.mp h
      revert h2
      decide
    unfold choose_canonical
    simp only [List.foldl_cons, List.foldl_nil]
    have h1 : chooseStep none "abcdefg1 (2).jpg" =
        some ("abcdefg1 (2).jpg", score_destination "abcdefg1 (2).jpg") := rfl
    rw [h1]
    unfold chooseStep
    dsimp only
    rw [if_neg (by decide), if_neg (fun hc => hlt hc.2)]
    rfl
  exact ⟨hch, by decide, by decide, by decide⟩

theorem KeyLt_trans {a b c : Int × Nat × Nat} (h1 : KeyLt a b) (h2 : KeyLt b c) :
    KeyLt a c := by
  obtain ⟨a1, a2, a3⟩ := a
  obtain ⟨b1, b2, b3⟩ := b
  obtain ⟨c1, c2, c3⟩ := c
  unfold KeyLt at *
  dsimp at *
  omega

theorem KeyLt_irrefl (a : Int × Nat × Nat) : ¬ KeyLt a a := by
  obtain ⟨a1, a2, a3⟩ := a
  unfold KeyLt
  dsimp
  omega

theorem KeyLt_resolve {a b : Int × Nat × Nat} (h : ¬ KeyLt a b) :
    a = b ∨ KeyLt b a := by
  obtain ⟨a1, a2, a3⟩ := a
  obtain ⟨b1, b2, b3⟩ := b
  unfold KeyLt at *
  dsimp at *
  by_cases he : a1 = b1 ∧ a2 = b2 ∧ a3 = b3
  · left
    rw [he.1, he.2.1, he.2.2]
  · right
    omega

/-- Helper: the `minByKey` fold returns a member whose key no other member
strictly precedes. -/
theorem minByKey_spec (xs : List FileRow) : ∀ (x : FileRow),
    (xs.foldl (fun best m => if KeyLt (candKey m) (candKey best) then m else best) x)
        ∈ x :: xs ∧
    ∀ m ∈ x :: xs, ¬ KeyLt (candKey m)
      (candKey (xs.foldl (fun best m =>
        if KeyLt (candKey m) (candKey best) then m else best) x)) := by
  induction xs with
  | nil =>
    intro x
    refine ⟨List.mem_cons_self x [], ?_⟩
    intro m hm
    rcases List.mem_cons.mp hm with rfl | h
    · exact KeyLt_irrefl (candKey m)
    · cases h
  | cons y xs ih =>
    intro x
    rw [List.foldl_cons]
    by_cases hlt : KeyLt (candKey y) (candKey x)
    · rw [if_pos hlt]
      obtain ⟨hmem, hmin⟩ := ih y
      refine ⟨List.mem_cons_of_mem x hmem, ?_⟩
      intro m hm
      rcases List.mem_cons.mp hm with h | h2
      · rw [h]
        intro hc
        exact hmin y (List.mem_cons_self y xs) (KeyLt_trans hlt hc)
      · exact hmin m h2
    · rw [if_neg hlt]
      obtain ⟨hmem, hmin⟩ := ih x
      refine ⟨?_, ?_⟩
      · rcases List.mem_cons.mp hmem with h | h
        · rw [h]
          exact List.mem_cons_self x (y :: xs)
        · exact List.mem_cons_of_mem x (List.mem_cons_of_mem y h)
      · intro m hm
        rcases List.mem_cons.mp hm with h | h2
        · rw [h]
          exact hmin x (List.mem_cons_self x xs)
        · rcases List.mem_cons.mp h2 with h3 | h3
          · rw [h3]
            intro hc
            rcases KeyLt_resolve hlt with heq | hgt
            · exact hmin x (List.mem_cons_self x xs) (heq ▸ hc)
            · exact hmin x (List.mem_cons_self x xs) (KeyLt_trans hgt hc)
          · exact hmin m (List.mem_cons_of_mem x h3)

/-- Helper: a nonempty head bucket yields its key-minimal member. -/
theorem chooseFromRoles_head (members : List FileRow) (role : String) (rest : List String)
    (h : ∃ m ∈ members, lowerStr m.role = role) :
    ∃ c, chooseFromRoles members (role :: rest) = some c ∧
      lowerStr c.role = role ∧ c ∈ members ∧
      (∀ m ∈ members, lowerStr m.role = role → ¬ KeyLt (candKey m) (candKey c)) := by
  obtain ⟨m0, hm0, hrole⟩ := h
  have hbmem : m0 ∈ members.filter (fun m => decide (lowerStr m.role = role)) :=
    List.mem_filter.mpr ⟨hm0, by simp [hrole]⟩
  cases hbl : members.filter (fun m => decide (lowerStr m.role = role)) with
  | nil =>
    rw [hbl] at hbmem
    cases hbmem
  | cons x xs =>
    have heq : chooseFromRoles members (role :: rest) = minByKey (x :: xs) := by
      simp only [chooseFromRoles]
      rw [hbl]
      simp
    obtain ⟨hmem, hmin⟩ := minByKey_spec xs x
    set c := xs.foldl (fun best m =>
      if KeyLt (candKey m) (candKey best) then m else best) x with hcdef
    have hcb : c ∈ members.filter (fun m => decide (lowerStr m.role = role)) := by
      rw [hbl]
      exact hmem
    have hcm := List.mem_filter.mp hcb
    have hcrole : lowerStr c.role = role := by simpa using hcm.2
    refine ⟨c, by rw [heq]; rfl, hcrole, hcm.1, ?_⟩
    intro m hm hmr
    have hmb : m ∈ x :: xs := by
      rw [← hbl]
      exact List.mem_filter.mpr ⟨hm, by simp [hmr]⟩
    exact hmin m hmb

/-- Helper: no member carries any of the requested roles, so the role loop
falls through to `none`. -/
theorem chooseFromRoles_none (members : List FileRow) : ∀ (roles : List String),
    (∀ m ∈ members, lowerStr m.role ∉ roles) →
    chooseFromRoles members roles = none := by
  intro roles
  induction roles with
  | nil => intro _; rfl
  | cons r rest ih =>
    intro h
    have hb : members.filter (fun m => decide (lowerStr m.role = r)) = [] := by
      rw [List.filter_eq_nil_iff]
      intro m hm
      simp only [decide_eq_true_eq]
      intro hc
      exact (h m hm) (by rw [hc]; exact List.mem_cons_self r rest)
    simp only [chooseFromRoles]
    rw [hb]
    simp only [List.isEmpty_nil, if_true]
    exact ih (fun m hm hc => h m hm (List.mem_cons_of_mem r hc))

/-- Helper: any selected candidate is a member, carries one of the
requested roles, and is key-minimal within its role bucket. -/
theorem chooseFromRoles_some (members : List FileRow) : ∀ (roles : List String) (c : FileRow),
    chooseFromRoles members roles = some c →
    c ∈ members ∧ lowerStr c.role ∈ roles ∧
    (∀ m ∈ members, lowerStr m.role = lowerStr c.role →
      ¬ KeyLt (candKey m) (candKey c)) := by
  intro roles
  induction roles with
  | nil =>
    intro c hc
    cases hc
  | cons r rest ih =>
    intro c hc
    by_cases hb : (members.filter (fun m => decide (lowerStr m.role = r))).isEmpty = true
    · have hskip : chooseFromRoles members (r :: rest) = chooseFromRoles members rest := by
        simp only [chooseFromRoles]
        rw [if_pos hb]
      rw [hskip] at hc
      obtain ⟨h1, h2, h3⟩ := ih c hc
      exact ⟨h1, List.mem_cons_of_mem r h2, h3⟩
    · cases hbl : members.filter (fun m => decide (lowerStr m.role = r)) with
      | nil =>
        rw [hbl] at hb
        simp at hb
      | cons x xs =>
        have heq : chooseFromRoles members (r :: rest) = minByKey (x :: xs) := by
          simp only [chooseFromRoles]
          rw [hbl]
          simp
        rw [heq] at hc
        have hc2 : xs.foldl (fun best m =>
            if KeyLt (candKey m) (candKey best) then m else best) x = c :=
          Option.some.inj hc
        obtain ⟨hmem, hmin⟩ := minByKey_spec xs x
        rw [hc2] at hmem hmin
        have hcb : c ∈ members.filter (fun m => decide (lowerStr m.role = r)) := by
          rw [hbl]
          exact hmem
        have hcm := List.mem_filter.mp hcb
        have hcrole : lowerStr c.role = r := by simpa using hcm.2
        refine ⟨hcm.1, by rw [hcrole]; exact List.mem_cons_self r rest, ?_⟩
        intro m hm hmr
        have hmb : m ∈ x :: xs := by
          rw [← hbl]
          exact List.mem_filter.mpr ⟨hm, by simp [hmr, hcrole]⟩
        exact hmin m hmb

/-- C5: canonical-candidate selection follows the role priority
library → staging (→ original only under the fallback flag): if any
library member exists the selection is a library member; if no member has
an allowed role the result is `None`; and any selected candidate is
key-minimal within its role bucket under the deterministic key
`(-healthy, normalized-path length, file id)`. -/
theorem C5_choose_canonical_candidate_spec (members : List FileRow) (allow : Bool) :
    ((∃ m ∈ members, lowerStr m.role = "library") →
      ∃ c, choose_canonical_candidate members allow = some c ∧
        lowerStr c.role = "library" ∧ c ∈ members ∧
        (∀ m ∈ members, lowerStr m.role = "library" →
          ¬ KeyLt (candKey m) (candKey c))) ∧
    ((∀ m ∈ members, lowerStr m.role ∉ roleOrder allow) →
      choose_canonical_candidate members allow = none) ∧
    (∀ c, choose_canonical_candidate members allow = some c →
      c ∈ members ∧ lowerStr c.role ∈ roleOrder allow ∧
      (∀ m ∈ members, lowerStr m.role = lowerStr c.role →
        ¬ KeyLt (candKey m) (candKey c))) := by
  refine ⟨?_, ?_, ?_⟩
  · intro h
    have hne : members.isEmpty = false := by
      obtain ⟨m0, hm0, _⟩ := h
      cases members
      · cases hm0
      · rfl
    unfold choose_canonical_candidate
    rw [hne]
    cases allow
    · simp only [roleOrder, if_false, Bool.false_eq_true]
      exact chooseFromRoles_head members "library" ["staging"] h
    · simp only [roleOrder, if_true]
      exact chooseFromRoles_head members "library" ["staging", "original"] h
  · intro h
    unfold choose_canonical_candidate
    by_cases he : members.isEmpty = true
    · rw [if_pos he]
    · rw [if_neg he]
      exact chooseFromRoles_none members _ h
  · intro c hc
    unfold choose_canonical_candidate at hc
    by_cases he : members.isEmpty = true
    · rw [if_pos he] at hc
      cases hc
    · rw [if_neg he] at hc
      exact chooseFromRoles_some members _ c hc

/-- Witness for C5: a group with only an `original` member and the fallback
flag unset selects no canonical candidate. -/
theorem C5_choose_canonical_candidate_spec_witness :
    choose_canonical_candidate [⟨1, "p", none, none, "original"⟩] false = none :=
  (C5_choose_canonical_candidate_spec [⟨1, "p", none, none, "original"⟩] false).2.1
    (by decide)

theorem upsertOne_sha (sha : String) (cid : Nat) (force : Bool) (g : HashGroup) :
    (upsertOne sha cid force g).sha = g.sha := by
  unfold upsertOne
  split
  · split <;> rfl
  · split <;> rfl

theorem resolveGroup_sha (cand : String → Option Nat) (force : Bool) (g : HashGroup) :
    (resolveGroup cand force g).sha = g.sha := by
  unfold resolveGroup
  cases cand g.sha with
  | none => rfl
  | some c => exact upsertOne_sha g.sha c force g

/-- Helper: re-applying `upsertOne` on the group's own sha changes nothing
the second time. -/
theorem upsertOne_idem (sha : String) (c : Nat) (force : Bool) (g : HashGroup)
    (h : g.sha = sha) :
    upsertOne sha c force (upsertOne sha c force g) = upsertOne sha c force g := by
  unfold upsertOne
  cases force
  · by_cases h1 : g.canonical = none
    · simp [h, h1]
    · simp [h, h1]
  · simp [h]

/-- Applying the same resolution step twice changes nothing the second
time. -/
theorem resolveGroup_idem (cand : String → Option Nat) (force : Bool) (g : HashGroup) :
    resolveGroup cand force (resolveGroup cand force g) = resolveGroup cand force g := by
  rcases hc : cand g.sha with _ | c
  · have h1 : resolveGroup cand force g = g := by
      unfold resolveGroup
      rw [hc]
    rw [h1, h1]
  · have h1 : resolveGroup cand force g = upsertOne g.sha c force g := by
      unfold resolveGroup
      rw [hc]
    have hsha : (upsertOne g.sha c force g).sha = g.sha := upsertOne_sha g.sha c force g
    have h2 : resolveGroup cand force (upsertOne g.sha c force g) =
        upsertOne g.sha c force (upsertOne g.sha c force g) := by
      unfold resolveGroup
      rw [hsha, hc]
    rw [h1, h2]
    exact upsertOne_idem g.sha c force g rfl

/-- Helper: one `upsertOne` pass for a sha other than the group's leaves
the group unchanged. -/
theorem upsertOne_other (sha : String) (cid : Nat) (force : Bool) (g : HashGroup)
    (h : g.sha ≠ sha) : upsertOne sha cid force g = g := by
  unfold upsertOne
  cases force
  · simp only [if_false, Bool.false_eq_true]
    rw [if_neg (fun hc => h hc.1)]
  · simp only [if_true]
    rw [if_neg h]

/-- Helper: on the group's own sha, `upsertOne` agrees with
`resolveGroup` when the candidate matches. -/
theorem upsertOne_self (cand : String → Option Nat) (force : Bool) (g : HashGroup)
    (c : Nat) (hc : cand g.sha = some c) :
    upsertOne g.sha c force g = resolveGroup cand force g := by
  unfold resolveGroup
  rw [hc]

/-- Helper: the fold of per-sha upserts equals the pointwise map that
resolves exactly the groups whose sha occurs in the processed list. -/
theorem foldUpserts_eq_map (cand : String → Option Nat) (force : Bool) :
    ∀ (shas : List String) (acc : List HashGroup),
    shas.foldl
      (fun acc sha =>
        match cand sha with
        | none => acc
        | some c => (upsert_canonical acc sha c force).1)
      acc =
    acc.map (fun g => if g.sha ∈ shas then resolveGroup cand force g else g) := by
  intro shas
  induction shas with
  | nil =>
    intro acc
    simp
  | cons s rest ih =>
    intro acc
    rw [List.foldl_cons]
    rcases hc : cand s with _ | c
    · dsimp only
      rw [ih acc]
      refine List.map_congr_left ?_
      intro g _
      by_cases hs : g.sha = s
      · by_cases hr : g.sha ∈ rest
        · rw [if_pos hr, if_pos (List.mem_cons.mpr (Or.inr hr))]
        · rw [if_neg hr, if_pos (List.mem_cons.mpr (Or.inl hs))]
          unfold resolveGroup
          rw [hs, hc]
      · by_cases hr : g.sha ∈ rest
        · rw [if_pos hr, if_pos (List.mem_cons.mpr (Or.inr hr))]
        · rw [if_neg hr, if_neg (fun hmem => by
            rcases List.mem_cons.mp hmem with h | h
            · exact hs h
            · exact hr h)]
    · dsimp only
      have hstep : (upsert_canonical acc s c force).1 = acc.map (upsertOne s c force) := rfl
      rw [hstep, ih (acc.map (upsertOne s c force)), List.map_map]
      refine List.map_congr_left ?_
      intro g _
      simp only [Function.comp]
      by_cases hs : g.sha = s
      · have hself : upsertOne s c force g = resolveGroup cand force g := by
          rw [← hs]
          exact upsertOne_self cand force g c (hs ▸ hc)
        rw [hself]
        by_cases hr : (resolveGroup cand force g).sha ∈ rest
        · rw [if_pos hr, resolveGroup_idem,
            if_pos (List.mem_cons.mpr (Or.inr (by rwa [resolveGroup_sha] at hr)))]
        · rw [if_neg hr, if_pos (List.mem_cons.mpr (Or.inl hs))]
      · rw [upsertOne_other s c force g hs]
        by_cases hr : g.sha ∈ rest
        · rw [if_pos hr, if_pos (List.mem_cons.mpr (Or.inr hr))]
        · rw [if_neg hr, if_neg (fun hmem => by
            rcases List.mem_cons.mp hmem with h | h
            · exact hs h
            · exact hr h)]

/-- Helper: a resolution run is the pointwise `resolveGroup` map. -/
theorem resolve_run_eq_map (t : List HashGroup) (cand : String → Option Nat)
    (force : Bool) :
    resolve_run t cand force = t.map (resolveGroup cand force) := by
  unfold resolve_run
  rw [foldUpserts_eq_map cand force (t.map (fun g => g.sha)) t]
  refine List.map_congr_left ?_
  intro g hg
  rw [if_pos (List.mem_map.mpr ⟨g, hg, rfl⟩)]

/-- C8: without the force flag a group whose canonical is already set is
left unchanged by resolution (the UPDATE applies only where the canonical
is NULL), and resolution is idempotent: a second run writes no new
canonical value to any group. -/
theorem C8_canonical_resolution_idempotent (t : List HashGroup)
    (cand : String → Option Nat) :
    (∀ g ∈ t, g.canonical ≠ none → resolveGroup cand false g = g) ∧
    resolve_run t cand false = t.map (resolveGroup cand false) ∧
    resolve_run (resolve_run t cand false) cand false = resolve_run t cand false := by
  refine ⟨?_, resolve_run_eq_map t cand false, ?_⟩
  · intro g _ hset
    unfold resolveGroup
    rcases hc : cand g.sha with _ | c
    · rfl
    · unfold upsertOne
      simp only [if_false, Bool.false_eq_true]
      rw [if_neg (fun hcon => hset hcon.2)]
  · rw [resolve_run_eq_map, resolve_run_eq_map, List.map_map]
    refine List.map_congr_left ?_
    intro g _
    simp only [Function.comp]
    exact resolveGroup_idem cand false g

/-- Witness for C8: a table with one group whose canonical is set (to 5)
and one unset group; the set group survives resolution unchanged, and a
second run equals the first. -/
theorem C8_canonical_resolution_idempotent_witness :
    resolveGroup (fun s => if s = "h1" then some 9 else if s = "h2" then some 7 else none)
        false ⟨"h1", some 5⟩ = ⟨"h1", some 5⟩ ∧
    resolve_run
        (resolve_run [⟨"h1", some 5⟩, ⟨"h2", none⟩]
          (fun s => if s = "h1" then some 9 else if s = "h2" then some 7 else none) false)
        (fun s => if s = "h1" then some 9 else if s = "h2" then some 7 else none) false =
      resolve_run [⟨"h1", some 5⟩, ⟨"h2", none⟩]
        (fun s => if s = "h1" then some 9 else if s = "h2" then some 7 else none) false :=
  ⟨(C8_canonical_resolution_idempotent [⟨"h1", some 5⟩, ⟨"h2", none⟩]
      (fun s => if s = "h1" then some 9 else if s = "h2" then some 7 else none)).1
    ⟨"h1", some 5⟩ (List.mem_cons_self _ _) (by simp),
   (C8_canonical_resolution_idempotent [⟨"h1", some 5⟩, ⟨"h2", none⟩]
      (fun s => if s = "h1" then some 9 else if s = "h2" then some 7 else none)).2.2⟩

/-- Helper: full pointwise characterization of the walk. -/
theorem scanWalk_lookup (rootId runId : Nat) (obs : List String) :
    ∀ (db : FilesDB) (r : Nat) (q : String),
    scanWalk db rootId runId obs r q =
      if r = rootId ∧ q ∈ obs then some ⟨"active", runId⟩ else db r q := by
  induction obs with
  | nil =>
    intro db r q
    simp [scanWalk]
  | cons p obs ih =>
    intro db r q
    show scanWalk (upsertFile db rootId runId p) rootId runId obs r q = _
    rw [ih]
    by_cases h1 : r = rootId ∧ q ∈ obs
    · rw [if_pos h1, if_pos ⟨h1.1, List.mem_cons_of_mem p h1.2⟩]
    · rw [if_neg h1]
      unfold upsertFile
      by_cases h2 : r = rootId ∧ q = p
      · rw [if_pos h2, if_pos ⟨h2.1, h2.2 ▸ List.mem_cons_self p obs⟩]
      · rw [if_neg h2, if_neg (fun hc => by
          rcases List.mem_cons.mp hc.2 with h | h
          · exact h2 ⟨hc.1, h⟩
          · exact h1 ⟨hc.1, h⟩)]

/-- C9: after a non-dry-run scan of a root in a fresh run, every file row
of that root that was `active` and was not observed is `missing`; every
observed path of that root is `active` with the current run recorded; and
rows of other roots are untouched. -/
theorem C9_scan_marks_missing (db : FilesDB) (rootId runId : Nat) (obs : List String)
    (hfresh : ∀ r q f, db r q = some f → f.lastSeen ≠ runId) :
    (∀ p f, db rootId p = some f → f.status = "active" → p ∉ obs →
      scan_root_db db rootId runId obs rootId p = some ⟨"missing", runId⟩) ∧
    (∀ p, p ∈ obs → scan_root_db db rootId runId obs rootId p = some ⟨"active", runId⟩) ∧
    (∀ r p, r ≠ rootId → scan_root_db db rootId runId obs r p = db r p) := by
  refine ⟨?_, ?_, ?_⟩
  · intro p f hdb hact hnobs
    unfold scan_root_db mark_missing
    rw [scanWalk_lookup, if_neg (fun hc => hnobs hc.2), hdb]
    simp [hact, hfresh rootId p f hdb]
  · intro p hp
    unfold scan_root_db mark_missing
    rw [scanWalk_lookup, if_pos ⟨rfl, hp⟩]
    simp
  · intro r p hr
    unfold scan_root_db mark_missing
    rw [scanWalk_lookup, if_neg (fun hc => hr hc.1)]
    cases hdb : db r p with
    | none => rfl
    | some f => simp [hr]

/-- Witness for C9 on a concrete two-root database: in run 7 observing
only `new` under root 1, the stale `old` row of root 1 becomes `missing`,
`new` is `active`, and root 2's row is untouched. -/
theorem C9_scan_marks_missing_witness :
    scan_root_db
        (fun r q => if r = 1 ∧ q = "old" then some ⟨"active", 3⟩
          else if r = 2 ∧ q = "keep" then some ⟨"active", 3⟩ else none)
        1 7 ["new"] 1 "old" = some ⟨"missing", 7⟩ ∧
    scan_root_db
        (fun r q => if r = 1 ∧ q = "old" then some ⟨"active", 3⟩
          else if r = 2 ∧ q = "keep" then some ⟨"active", 3⟩ else none)
        1 7 ["new"] 1 "new" = some ⟨"active", 7⟩ ∧
    scan_root_db
        (fun r q => if r = 1 ∧ q = "old" then some ⟨"active", 3⟩
          else if r = 2 ∧ q = "keep" then some ⟨"active", 3⟩ else none)
        1 7 ["new"] 2 "keep" = some ⟨"active", 3⟩ := by
  have hfresh : ∀ r q f,
      (fun r q => if r = 1 ∧ q = "old" then some (⟨"active", 3⟩ : FileRec)
        else if r = 2 ∧ q = "keep" then some ⟨"active", 3⟩ else none) r q = some f →
      f.lastSeen ≠ 7 := by
    intro r q f hf
    dsimp only at hf
    by_cases h1 : r = 1 ∧ q = "old"
    · rw [if_pos h1] at hf
      cases hf
      decide
    · rw [if_neg h1] at hf
      by_cases h2 : r = 2 ∧ q = "keep"
      · rw [if_pos h2] at hf
        cases hf
        decide
      · rw [if_neg h2] at hf
        cases hf
  have h := C9_scan_marks_missing
    (fun r q => if r = 1 ∧ q = "old" then some ⟨"active", 3⟩
      else if r = 2 ∧ q = "keep" then some ⟨"active", 3⟩ else none)
    1 7 ["new"] hfresh
  refine ⟨h.1 "old" ⟨"active", 3⟩ (by decide) rfl (by decide), h.2.1 "new" (by decide), ?_⟩
  have h3 := h.2.2 2 "keep" (by decide)
  rw [h3]
  decide

theorem prefLen_self : ∀ (l : List Char), prefLen l l = l.length
  | [] => rfl
  | c :: l => by
    show (if c = c then prefLen l l + 1 else 0) = l.length + 1
    rw [if_pos rfl, prefLen_self l]

theorem matchLenAt_le (a b : List Char) (ahi bhi : Nat) (p : Nat × Nat) :
    matchLenAt a b ahi bhi p ≤ ahi :=
  le_trans (le_trans (min_le_right _ _) (min_le_left _ _)) (Nat.sub_le ahi p.1)

/-- Helper: the fold keeps a best block no candidate strictly exceeds. -/
theorem bmStep_foldl_keep (a b : List Char) (ahi bhi : Nat) :
    ∀ (l : List (Nat × Nat)) (best : Nat × Nat × Nat),
    (∀ p : Nat × Nat, matchLenAt a b ahi bhi p ≤ best.2.2) →
    l.foldl (bmStep a b ahi bhi) best = best := by
  intro l
  induction l with
  | nil => intro best _; rfl
  | cons p l ih =>
    intro best h
    rw [List.foldl_cons]
    have hstep : bmStep a b ahi bhi best p = best := by
      unfold bmStep
      dsimp only
      rw [if_neg (not_lt.mpr (h p))]
    rw [hstep]
    exact ih best h

/-- Helper: a nonempty square index rectangle starts with `(0, 0)`. -/
theorem idxPairsIn_zero_cons (n : Nat) (hn : 0 < n) :
    ∃ rest, idxPairsIn 0 n 0 n = (0, 0) :: rest := by
  obtain ⟨m, rfl⟩ : ∃ m, n = m + 1 := ⟨n - 1, by omega⟩
  unfold idxPairsIn
  rw [Nat.sub_zero]
  have hmap : (List.range (m + 1)).map (fun i => i + 0) = List.range (m + 1) := by
    simp
  rw [hmap, List.range_succ_eq_map, List.flatMap_cons]
  rw [List.map_cons, List.cons_append]
  exact ⟨_, rfl⟩

/-- Helper: matching a list against itself finds the whole list as the
longest block. -/
theorem bestMatchIn_self (l : List Char) (hl : l ≠ []) :
    bestMatchIn l l 0 l.length 0 l.length = (0, 0, l.length) := by
  have hn : 0 < l.length := List.length_pos.mpr hl
  obtain ⟨rest, hrest⟩ := idxPairsIn_zero_cons l.length hn
  unfold bestMatchIn
  rw [hrest, List.foldl_cons]
  have hk : matchLenAt l l l.length l.length (0, 0) = l.length := by
    unfold matchLenAt
    rw [prefLen_self]
    simp
  have hstep : bmStep l l l.length l.length (0, 0, 0) (0, 0) = (0, 0, l.length) := by
    unfold bmStep
    dsimp only
    rw [hk, if_pos hn]
  rw [hstep]
  exact bmStep_foldl_keep l l l.length l.length rest (0, 0, l.length)
    (fun p => matchLenAt_le l l l.length l.length p)

/-- Helper: an empty rectangle contributes no matches. -/
theorem matchTotal_empty (a b : List Char) (fuel alo blo bhi : Nat) :
    matchTotal a b fuel alo alo blo bhi = 0 := by
  cases fuel with
  | zero => rfl
  | succ f =>
    have hb : bestMatchIn a b alo alo blo bhi = (alo, blo, 0) := by
      unfold bestMatchIn idxPairsIn
      rw [Nat.sub_self]
      rfl
    unfold matchTotal
    rw [hb]
    simp

/-- Helper: the total matched length of a list against itself is its whole
length. -/
theorem matchTotal_self (l : List Char) (hl : l ≠ []) :
    matchTotal l l (l.length + l.length + 1) 0 l.length 0 l.length = l.length := by
  have hn : 0 < l.length := List.length_pos.mpr hl
  have hstep : matchTotal l l (l.length + l.length + 1) 0 l.length 0 l.length =
      (let m := bestMatchIn l l 0 l.length 0 l.length
       if m.2.2 = 0 then 0
       else m.2.2 + matchTotal l l (l.length + l.length) 0 m.1 0 m.2.1 +
         matchTotal l l (l.length + l.length) (m.1 + m.2.2) l.length
           (m.2.1 + m.2.2) l.length) := rfl
  rw [hstep, bestMatchIn_self l hl]
  dsimp only
  rw [if_neg (by omega)]
  rw [matchTotal_empty]
  have h2 : matchTotal l l (l.length + l.length) (0 + l.length) l.length
      (0 + l.length) l.length = 0 := by
    rw [Nat.zero_add]
    exact matchTotal_empty l l (l.length + l.length) l.length l.length l.length
  rw [h2]
  omega

/-- Helper: for `1 ≤ n ≤ f`, `log2fuel f n` is the floor base-2
logarithm. -/
theorem log2fuel_spec : ∀ (f n : Nat), 1 ≤ n → n ≤ f →
    2 ^ log2fuel f n ≤ n ∧ n < 2 ^ (log2fuel f n + 1) := by
  intro f
  induction f with
  | zero => intro n h1 h2; omega
  | succ f ih =>
    intro n h1 h2
    by_cases hle : n ≤ 1
    · have hn : n = 1 := by omega
      subst hn
      simp [log2fuel]
    · have h1' : 1 ≤ n / 2 := by omega
      have h2' : n / 2 ≤ f := by omega
      obtain ⟨ha, hb⟩ := ih (n / 2) h1' h2'
      have hl : log2fuel (f + 1) n = log2fuel f (n / 2) + 1 := by
        simp [log2fuel, hle]
      rw [hl]
      constructor
      · have : 2 ^ (log2fuel f (n / 2) + 1) = 2 * 2 ^ log2fuel f (n / 2) := by ring
        omega
      · have : 2 ^ (log2fuel f (n / 2) + 1 + 1) = 2 * 2 ^ (log2fuel f (n / 2) + 1) := by ring
        omega

/-- Helper: the bit-length sandwich `2^(blen n - 1) ≤ n < 2^(blen n)`. -/
theorem blen_spec (n : Nat) (h : 1 ≤ n) : 2 ^ (blen n - 1) ≤ n ∧ n < 2 ^ blen n := by
  have := log2fuel_spec n n h le_rfl
  unfold blen
  simpa using this

/-- Helper: the bit-length sandwich determines `blen`. -/
theorem blen_unique (n c : Nat) (hc : 1 ≤ c) (h1 : 2 ^ (c - 1) ≤ n) (h2 : n < 2 ^ c) :
    blen n = c := by
  have hn : 1 ≤ n := le_trans Nat.one_le_two_pow h1
  obtain ⟨a, b⟩ := blen_spec n hn
  by_contra hne
  rcases Nat.lt_or_ge (blen n) c with hlt | hge
  · have : 2 ^ blen n ≤ 2 ^ (c - 1) := Nat.pow_le_pow_right (by norm_num) (by omega)
    omega
  · have : 2 ^ c ≤ 2 ^ (blen n - 1) := Nat.pow_le_pow_right (by norm_num) (by omega)
    omega

/-- Helper: bit length of a power of two. -/
theorem blen_two_pow (t : Nat) : blen (2 ^ t) = t + 1 :=
  blen_unique _ _ (by omega) (by simp) (Nat.pow_lt_pow_succ (by norm_num))

/-- Helper: shifting left by `k` adds `k` to the bit length. -/
theorem blen_mul_pow (n k : Nat) (h : 1 ≤ n) : blen (n * 2 ^ k) = blen n + k := by
  obtain ⟨a, b⟩ := blen_spec n h
  have h1 : 1 ≤ blen n := by unfold blen; omega
  apply blen_unique
  · omega
  · calc 2 ^ (blen n + k - 1) = 2 ^ (blen n - 1) * 2 ^ k := by
          rw [← pow_add]; congr 1; omega
    _ ≤ n * 2 ^ k := Nat.mul_le_mul_right _ a
  · calc n * 2 ^ k < 2 ^ blen n * 2 ^ k := (Nat.mul_lt_mul_right (Nat.two_pow_pos k)).mpr b
    _ = 2 ^ (blen n + k) := by rw [← pow_add]

/-- Helper: rounding a value of at most 53 bits only normalizes the
representation. -/
theorem roundB64_small (m : ℕ) (e : ℤ) (h0 : m ≠ 0) (h53 : blen m ≤ 53) :
    roundB64 m e = ⟨m * 2 ^ (53 - blen m), e - (53 - blen m)⟩ := by
  unfold roundB64
  rw [if_neg h0, if_pos h53]

/-- Helper: rounding is exact (a pure shift) when the bits below the
rounding point are all zero. -/
theorem roundB64_exact (m : ℕ) (e : ℤ) (h53 : 53 < blen m)
    (hdvd : m % 2 ^ (blen m - 53) = 0) :
    roundB64 m e = ⟨m / 2 ^ (blen m - 53), e + ((blen m - 53 : ℕ) : ℤ)⟩ := by
  have h0 : m ≠ 0 := by
    intro h
    subst h
    exact absurd h53 (by decide)
  have h1 : 1 ≤ m := by omega
  unfold roundB64
  rw [if_neg h0, if_neg (by omega)]
  dsimp only
  rw [hdvd]
  rw [if_pos (Nat.two_pow_pos _)]
  have hq : m / 2 ^ (blen m - 53) < 2 ^ 53 := by
    apply Nat.div_lt_of_lt_mul
    calc m < 2 ^ blen m := (blen_spec m h1).2
    _ = 2 ^ (blen m - 53) * 2 ^ 53 := by rw [← pow_add]; congr 1; omega
  rw [if_neg (not_le.mpr hq)]

/-- Helper: a nonzero integer divided by itself is exactly 1.0 (the
canonical pair `⟨2^52, -52⟩`), for any magnitude — CPython's int/int
true division rounds the exact quotient once. -/
theorem divRound_self (a : ℕ) (ha : a ≠ 0) : divRound a a 0 = ⟨2 ^ 52, -52⟩ := by
  unfold divRound
  rw [if_neg (by simp [ha])]
  dsimp only
  rw [Nat.mul_div_cancel_left _ (Nat.pos_of_ne_zero ha), Nat.mul_mod_right, if_pos rfl]
  have h2 : 2 * 2 ^ (55 + blen a) + 0 = 2 ^ (56 + blen a) := by
    rw [Nat.add_zero, show 56 + blen a = 55 + blen a + 1 from by omega]
    ring
  rw [h2]
  rw [roundB64_exact _ _ (by rw [blen_two_pow]; omega)
    (by
      rw [blen_two_pow]
      rw [show (56 + blen a : ℕ) = (56 + blen a + 1 - 53) + 52 from by omega, pow_add]
      exact Nat.mul_mod_right _ _)]
  rw [blen_two_pow]
  congr 1
  · rw [Nat.pow_div (by omega) (by norm_num)]
    congr 1
    omega
  · omega

/-- Helper: the float ratio `2.0*n/(n+n)` is exactly 1.0 for
`1 ≤ n ≤ 2^52` (the int→float conversions are exact in that range and
the division is correctly rounded). -/
theorem ratio_self_core (n : ℕ) (h1 : 1 ≤ n) (h2 : n ≤ 2 ^ 52) :
    fdivB (fmulB (flNat 2) (flNat n)) (flNat (n + n)) = ⟨2 ^ 52, -52⟩ := by
  obtain ⟨hbl, hbu⟩ := blen_spec n h1
  have hb1 : 1 ≤ blen n := by unfold blen; omega
  have hb53 : blen n ≤ 53 := by
    by_contra hc
    have : 2 ^ 53 ≤ 2 ^ (blen n - 1) := Nat.pow_le_pow_right (by norm_num) (by omega)
    have h52 : (2 : ℕ) ^ 52 < 2 ^ 53 := by norm_num
    omega
  have hfn : flNat n = ⟨n * 2 ^ (53 - blen n), 0 - (53 - blen n)⟩ :=
    roundB64_small n 0 (by omega) hb53
  have hf2 : flNat 2 = ⟨2 ^ 52, -51⟩ := by decide
  have hN1 : 1 ≤ n * 2 ^ (53 - blen n) := Nat.mul_pos (by omega) (Nat.two_pow_pos _)
  have hblenN : blen (n * 2 ^ (53 - blen n)) = 53 := by
    rw [blen_mul_pow n _ h1]
    omega
  have hblenP : blen (n * 2 ^ (53 - blen n) * 2 ^ 52) = 105 := by
    rw [blen_mul_pow _ 52 hN1, hblenN]
  have hmul : fmulB ⟨2 ^ 52, -51⟩ ⟨n * 2 ^ (53 - blen n), 0 - (53 - blen n)⟩ =
      ⟨n * 2 ^ (53 - blen n), 0 - (53 - blen n) + 1⟩ := by
    unfold fmulB
    dsimp only
    rw [show 2 ^ 52 * (n * 2 ^ (53 - blen n)) = n * 2 ^ (53 - blen n) * 2 ^ 52 from by ring]
    rw [roundB64_exact _ _ (by rw [hblenP]; omega)
      (by rw [hblenP]; exact Nat.mul_mod_left _ _)]
    rw [hblenP]
    congr 1
    · rw [show (105 - 53 : ℕ) = 52 from rfl]
      exact Nat.mul_div_cancel _ (Nat.two_pow_pos 52)
    · omega
  have hfnn : flNat (n + n) = ⟨n * 2 ^ (53 - blen n), 0 - (53 - blen n) + 1⟩ := by
    rw [show n + n = n * 2 from by ring]
    have hblen2 : blen (n * 2) = blen n + 1 := by
      have := blen_mul_pow n 1 h1
      simpa using this
    by_cases hc : blen n ≤ 52
    · unfold flNat
      rw [roundB64_small _ _ (by positivity) (by omega)]
      rw [hblen2]
      congr 1
      · rw [Nat.mul_assoc, show (53 - (blen n + 1)) = 52 - blen n from by omega,
          show (53 - blen n) = (52 - blen n) + 1 from by omega, pow_succ']
      · omega
    · have hb53' : blen n = 53 := by omega
      unfold flNat
      rw [roundB64_exact _ _ (by rw [hblen2, hb53']; omega)
        (by
          rw [hblen2, hb53', show (54 - 53 : ℕ) = 1 from rfl, pow_one]
          exact Nat.mul_mod_left n 2)]
      rw [hblen2, hb53']
      congr 1
      · rw [show (54 - 53 : ℕ) = 1 from rfl, pow_one, show (53 - 53 : ℕ) = 0 from rfl,
          pow_zero, Nat.mul_one]
        exact Nat.mul_div_cancel n (by norm_num)
  rw [hf2, hfn, hmul, hfnn]
  unfold fdivB
  dsimp only
  rw [sub_self]
  exact divRound_self _ (by omega)

/-- Helper: every `B64` value is nonnegative. -/
theorem val_nonneg (x : B64) : 0 ≤ x.val :=
  mul_nonneg (Nat.cast_nonneg _) (le_of_lt (zpow_pos (by norm_num) _))

/-- Helper: the value of a `B64` re-expressed at any smaller exponent. -/
theorem val_shift (x : B64) (e : ℤ) (he : e ≤ x.e) :
    x.val = ((x.m * 2 ^ (x.e - e).toNat : ℕ) : ℚ) * (2 : ℚ) ^ e := by
  unfold B64.val
  push_cast
  rw [← zpow_natCast (2 : ℚ) (x.e - e).toNat, Int.toNat_of_nonneg (sub_nonneg.mpr he),
    mul_assoc, ← zpow_add₀ (by norm_num : (2 : ℚ) ≠ 0), sub_add_cancel]

/-- Helper: the float comparison `fltB` agrees with the order of the
represented rational values. -/
theorem fltB_iff (x y : B64) : fltB x y = true ↔ x.val < y.val := by
  unfold fltB
  rw [decide_eq_true_eq]
  rw [val_shift x (min x.e y.e) (min_le_left _ _), val_shift y (min x.e y.e) (min_le_right _ _)]
  rw [mul_lt_mul_right (zpow_pos (by norm_num) _)]
  exact Iff.symm Nat.cast_lt

/-- Helper: the float 1.0 has value 1. -/
theorem val_one_lit : (flNat 1).val = 1 := by
  rw [show flNat 1 = ⟨2 ^ 52, -52⟩ from by decide]
  unfold B64.val
  norm_num

/-- Helper: the float 0.0 has value 0. -/
theorem val_zero_lit : (flNat 0).val = 0 := by
  rw [show flNat 0 = ⟨0, 0⟩ from rfl]
  unfold B64.val
  norm_num

/-- Helper: `max(0.0, min(1.0, w))` has value at most 1. -/
theorem clampB_le_one (w : B64) : (pyMaxB (flNat 0) (pyMinB (flNat 1) w)).val ≤ 1 := by
  unfold pyMaxB pyMinB
  by_cases hlt : fltB w (flNat 1) = true
  · rw [if_pos hlt]
    have hw1 : w.val < 1 := by
      have := (fltB_iff w (flNat 1)).mp hlt
      rwa [val_one_lit] at this
    by_cases h2 : fltB (flNat 0) w = true
    · rw [if_pos h2]
      exact le_of_lt hw1
    · rw [if_neg h2, val_zero_lit]
      norm_num
  · rw [if_neg hlt]
    by_cases h2 : fltB (flNat 0) (flNat 1) = true
    · rw [if_pos h2, val_one_lit]
    · rw [if_neg h2, val_zero_lit]
      norm_num

/-- Helper: the clamped weight with both similarities exactly 1.0 and no
extension match: `0.6 + 0.3` rounds to `0.8999999999999999`. -/
theorem weight_val_no_ext :
    (pyMaxB (flNat 0) (pyMinB (flNat 1)
      (faddB (faddB (fmulB lit060 ⟨2 ^ 52, -52⟩) (fmulB lit030 ⟨2 ^ 52, -52⟩))
        (fmulB lit010 (flNat 0))))).val = 8106479329266892 / 2 ^ 53 := by
  rw [show pyMaxB (flNat 0) (pyMinB (flNat 1)
      (faddB (faddB (fmulB lit060 ⟨2 ^ 52, -52⟩) (fmulB lit030 ⟨2 ^ 52, -52⟩))
        (fmulB lit010 (flNat 0)))) = ⟨8106479329266892, -53⟩ from by decide]
  unfold B64.val
  norm_num

/-- Helper: the clamped weight with both similarities exactly 1.0 and an
extension match: `0.6 + 0.3 + 0.1` rounds to `0.9999999999999999`. -/
theorem weight_val_ext :
    (pyMaxB (flNat 0) (pyMinB (flNat 1)
      (faddB (faddB (fmulB lit060 ⟨2 ^ 52, -52⟩) (fmulB lit030 ⟨2 ^ 52, -52⟩))
        (fmulB lit010 (flNat 1))))).val = 9007199254740991 / 2 ^ 53 := by
  rw [show pyMaxB (flNat 0) (pyMinB (flNat 1)
      (faddB (faddB (fmulB lit060 ⟨2 ^ 52, -52⟩) (fmulB lit030 ⟨2 ^ 52, -52⟩))
        (fmulB lit010 (flNat 1)))) = ⟨9007199254740991, -53⟩ from by decide]
  unfold B64.val
  norm_num

/-- Helper: `seq_similarity` of a string with itself is exactly the
float 1.0, provided the length stays within exact int→float range. -/
theorem seq_similarity_self (s : String) (hlen : s.data.length ≤ 2 ^ 52) :
    seq_similarity s s = ⟨2 ^ 52, -52⟩ := by
  unfold seq_similarity
  by_cases h : s = ""
  · rw [if_pos ⟨h, h⟩]
    decide
  · rw [if_neg (fun hc => h hc.1), if_neg (fun hc => hc.elim h h)]
    have hd : s.data ≠ [] := by
      intro hd
      apply h
      cases s with
      | mk data =>
        have hd2 : data = [] := by simpa using hd
        rw [hd2]
  -- fall through to the ratio computation
    unfold calculate_ratio
    have hn : 1 ≤ s.data.length := List.length_pos.mpr hd
    rw [if_neg (by omega), matchTotal_self s.data hd]
    exact ratio_self_core s.data.length hn hlen

/-- Helper: the Jaccard index of a token list with itself is exactly the
float 1.0 (no size bound: int/int division is correctly rounded). -/
theorem jaccard_self (l : List String) : jaccard l l = ⟨2 ^ 52, -52⟩ := by
  unfold jaccard
  by_cases h : l.toFinset = ∅
  · rw [if_pos ⟨h, h⟩]
    decide
  · rw [if_neg (fun hc => h hc.1), if_neg (fun hc => hc.elim h h),
      Finset.inter_self, Finset.union_self]
    exact divRound_self _
      (Finset.card_ne_zero.mpr (Finset.nonempty_iff_ne_empty.mpr h))

/-- Helper: the clamped weight always lies in `[0, 1]`. -/
theorem compute_provenance_weight_bounds (po pc : String) (oe ce : Option String) :
    0 ≤ (compute_provenance_weight po pc oe ce).val ∧
      (compute_provenance_weight po pc oe ce).val ≤ 1 := by
  refine ⟨val_nonneg _, ?_⟩
  unfold compute_provenance_weight
  dsimp only
  exact clampB_le_one _

/-- C7: every provenance weight is the float clamp of
`0.60*stem_sim + 0.30*dir_sim + 0.10*ext_match` into `[0, 1]`; every
inserted provenance row carries a weight in `[0, 1]` and not below the
configured minimum (lower rows are dropped); and an original whose
filename stem equals the canonical's stem (of length at most 2^52) and
whose directory tokens are identical scores at least
`0.8999999999999999 = 8106479329266892/2^53` — which reaches 0.9 exactly
when additionally the extensions are nonempty and match (in binary64,
`0.6 + 0.3 < 0.9`, so the spec's unconditional 0.9 bound fails). -/
theorem C7_provenance_weight :
    (∀ (po pc : String) (oe ce : Option String),
      0 ≤ (compute_provenance_weight po pc oe ce).val ∧
        (compute_provenance_weight po pc oe ce).val ≤ 1) ∧
    (∀ (originals : List FileRow) (cp : String) (ce : Option String) (mw : B64),
      ∀ r ∈ provenance_rows originals cp ce mw,
        mw.val ≤ r.2.val ∧ 0 ≤ r.2.val ∧ r.2.val ≤ 1) ∧
    (∀ (po pc : String) (oe ce : Option String),
      (stem_and_ext (normalize_rel_path po)).1 = (stem_and_ext (normalize_rel_path pc)).1 →
      (stem_and_ext (normalize_rel_path po)).1.data.length ≤ 2 ^ 52 →
      (split_path_parts (normalize_rel_path po)).dropLast =
        (split_path_parts (normalize_rel_path pc)).dropLast →
      (8106479329266892 / 2 ^ 53 : ℚ) ≤ (compute_provenance_weight po pc oe ce).val ∧
        ((pyExt oe (stem_and_ext (normalize_rel_path po)).2 ≠ "" ∧
          pyExt ce (stem_and_ext (normalize_rel_path pc)).2 ≠ "" ∧
          pyExt oe (stem_and_ext (normalize_rel_path po)).2 =
            pyExt ce (stem_and_ext (normalize_rel_path pc)).2) →
          (9 / 10 : ℚ) ≤ (compute_provenance_weight po pc oe ce).val)) := by
  refine ⟨fun po pc oe ce => compute_provenance_weight_bounds po pc oe ce, ?_, ?_⟩
  · intro originals cp ce mw r hr
    rcases List.mem_filterMap.mp hr with ⟨o, ho, heq⟩
    dsimp only at heq
    have hb := compute_provenance_weight_bounds o.path cp o.ext ce
    revert heq hb
    generalize compute_provenance_weight o.path cp o.ext ce = u
    intro heq hb
    by_cases hw : fltB u mw = true
    · rw [if_pos hw] at heq
      cases heq
    · rw [if_neg hw] at heq
      cases heq
      exact ⟨le_of_not_lt (fun hlt => hw ((fltB_iff _ _).mpr hlt)), hb.1, hb.2⟩
  · intro po pc oe ce hstem hlen hdir
    rw [hstem] at hlen
    unfold compute_provenance_weight
    dsimp only
    rw [hstem, hdir, seq_similarity_self _ hlen, jaccard_self]
    constructor
    · by_cases he : (pyExt oe (stem_and_ext (normalize_rel_path po)).2 ≠ "" ∧
          pyExt ce (stem_and_ext (normalize_rel_path pc)).2 ≠ "" ∧
          pyExt oe (stem_and_ext (normalize_rel_path po)).2 =
            pyExt ce (stem_and_ext (normalize_rel_path pc)).2)
      · rw [if_pos he, weight_val_ext]
        norm_num
      · rw [if_neg he, weight_val_no_ext]
    · intro he
      rw [if_pos he, weight_val_ext]
      norm_num

/-- Witness for C7 at a concrete pair: identical path, matching
extension — the weight reaches 0.9 (indeed `0.9999999999999999`). -/
theorem C7_provenance_weight_witness :
    (9 / 10 : ℚ) ≤ (compute_provenance_weight "x/y/img001.jpg" "x/y/img001.jpg"
      none none).val :=
  (C7_provenance_weight.2.2 "x/y/img001.jpg" "x/y/img001.jpg" none none
    (by decide) (by decide) (by decide)).2 (by decide)

/-- Counterexample to C7 as stated: same stem `photo`, same directory
tokens `a/b`, but mismatched extensions — the weight is
`fl(0.6) + fl(0.3) = 0.8999999999999999 < 0.9` in binary64. -/
theorem C7_provenance_weight_counterexample :
    (stem_and_ext (normalize_rel_path "a/b/photo.jpg")).1 =
      (stem_and_ext (normalize_rel_path "a/b/photo.png")).1 ∧
    (split_path_parts (normalize_rel_path "a/b/photo.jpg")).dropLast =
      (split_path_parts (normalize_rel_path "a/b/photo.png")).dropLast ∧
    (compute_provenance_weight "a/b/photo.jpg" "a/b/photo.png" none none).val
      < 9 / 10 := by
  refine ⟨by decide, by decide, ?_⟩
  rw [show compute_provenance_weight "a/b/photo.jpg" "a/b/photo.png" none none =
    ⟨8106479329266892, -53⟩ from by decide]
  unfold B64.val
  norm_num

end HomeAutomation
